import Mathlib

/-!
Verification development for the plantrack interval scheduling engine
(`src/main.rs`).  The Rust code is shallowly embedded: `DateTime<Utc>` is
modelled as `Int` (seconds since the epoch, compared as integers, exactly as
chrono compares instants), `chrono::NaiveTime` as a record of hour / minute /
second, `Duration::minutes(m)` as `m * 60` seconds, Rust `String` as `String`
compared through its character list (Rust compares strings bytewise, which on
UTF-8 agrees with code-point order), `Option<String>` as `Option String`
(Rust orders `None` below `Some`), and `Vec<ScheduleEvent>` as
`List ScheduleEvent`.  `Vec::sort_by` / `sort_by_key` are stable sorts, which
`List.insertionSort` with the same comparator is.  `Uuid::new_v4` (fresh ids
for fragments) is modelled by threading an id supply `ids : Nat → String`
together with a counter.  Fallible functions return `Option` / `Except`.
-/

namespace Plantrack

/-- Model of `chrono::NaiveTime` as used by the program: wall-clock
hour/minute/second fields. -/
structure NaiveTime where
  hour : Nat
  minute : Nat
  second : Nat
deriving DecidableEq

/-- Embedding of `round_time_to_interval` (main.rs lines 302-330): round the
minute field down or up to a multiple of `interval`, carrying minute overflow
into the hour modulo 24 and zeroing seconds. -/
def round_time_to_interval (time : NaiveTime) (interval : Nat) (round_up : Bool) : NaiveTime :=
  let minute := time.minute
  let remainder := minute % interval
  let new_minute :=
    if remainder = 0 then minute
    else if round_up then minute + (interval - remainder)
    else minute - remainder
  let new_time :=
    if 60 ≤ new_minute then
      let hour_offset := new_minute / 60
      let new_hour := (time.hour + hour_offset) % 24
      { time with hour := new_hour, minute := new_minute % 60 }
    else
      { time with minute := new_minute }
  { new_time with second := 0 }

/-- Embedding of the `ScheduleEvent` struct (main.rs lines 214-225).
`start_time` and `end_time` are UTC instants in seconds. -/
structure ScheduleEvent where
  id : String
  start_time : Int
  end_time : Int
  summary : String
  note : Option String
  location : Option String
  booked : Bool
deriving DecidableEq

/-- Embedding of `ScheduleEvent::can_merge` (main.rs lines 234-241). -/
def ScheduleEvent.can_merge (self other : ScheduleEvent) : Bool :=
  decide (self.summary = other.summary)
    && decide (self.note = other.note)
    && decide (self.location = other.location)
    && decide (self.booked = other.booked)
    && decide (self.end_time = other.start_time)

/-- Three-way comparison of character lists, the order Rust uses on `String`
(bytewise lexicographic, which equals code-point lexicographic on UTF-8). -/
def strCmpL : List Char → List Char → Ordering
  | [], [] => .eq
  | [], _ :: _ => .lt
  | _ :: _, [] => .gt
  | a :: as, b :: bs =>
    if a.toNat < b.toNat then .lt else if b.toNat < a.toNat then .gt else strCmpL as bs

/-- Rust `Ord` for `String`, through the character list. -/
def strCmp (a b : String) : Ordering := strCmpL a.data b.data

/-- Rust `Ord` for `Option<String>`: `None` sorts below `Some`. -/
def optStrCmp : Option String → Option String → Ordering
  | none, none => .eq
  | none, some _ => .lt
  | some _, none => .gt
  | some a, some b => strCmp a b

/-- Rust `Ord` for `bool`: `false < true`. -/
def boolCmp : Bool → Bool → Ordering
  | false, false => .eq
  | false, true => .lt
  | true, false => .gt
  | true, true => .eq

/-- Three-way comparison of integers (Rust `Ord` for `i64`, chrono instants). -/
def intCmp (a b : Int) : Ordering :=
  if a < b then .lt else if b < a then .gt else .eq

/-- The sort key of `merge_events` (main.rs line 370): the tuple
`(summary, note, location, booked, start_time)` compared lexicographically,
exactly as Rust's `sort_by_key` compares tuples. -/
def cmp_key (a b : ScheduleEvent) : Ordering :=
  (strCmp a.summary b.summary).then
    ((optStrCmp a.note b.note).then
      ((optStrCmp a.location b.location).then
        ((boolCmp a.booked b.booked).then (intCmp a.start_time b.start_time))))

/-- Ascending order on the `merge_events` sort key. -/
def keyRel (a b : ScheduleEvent) : Prop := cmp_key a b ≠ Ordering.gt

instance decKeyRel : DecidableRel keyRel :=
  fun a b => inferInstanceAs (Decidable (cmp_key a b ≠ Ordering.gt))

/-- Ascending order on `start_time`, the key of the final
`sort_by_key(|event| event.start_time)` (main.rs line 397) and of the sort in
`split_overlapping_events` (main.rs line 452). -/
def startLe (a b : ScheduleEvent) : Prop := a.start_time ≤ b.start_time

instance decStartLe : DecidableRel startLe :=
  fun a b => inferInstanceAs (Decidable (a.start_time ≤ b.start_time))

/-- The grouping key of `chunk_by` in `merge_events` (main.rs line 374):
`(summary, note, location, booked)` — all non-temporal attributes. -/
def sameKeyB (a b : ScheduleEvent) : Bool :=
  decide (a.summary = b.summary)
    && decide (a.note = b.note)
    && decide (a.location = b.location)
    && decide (a.booked = b.booked)

/-- Grouping of consecutive equal-keyed events, modelling
`itertools::chunk_by` over the key-sorted list (adjacent events with equal
non-temporal attributes land in one chunk; equality of keys is transitive, so
chaining on neighbours equals grouping maximal runs). -/
def chunkBy : List ScheduleEvent → List (List ScheduleEvent)
  | [] => []
  | e :: rest =>
    match chunkBy rest with
    | [] => [[e]]
    | [] :: gs => [e] :: gs
    | (f :: g) :: gs =>
      if sameKeyB e f then (e :: f :: g) :: gs else [e] :: (f :: g) :: gs

/-- Embedding of the inner fold of `merge_events` (main.rs lines 380-391):
walk the group, absorbing each next event that `can_merge` with the
accumulated one by extending `end_time` (the earliest id of a fold is kept). -/
def mergeRun : ScheduleEvent → List ScheduleEvent → List ScheduleEvent
  | cur, [] => [cur]
  | cur, next :: rest =>
    if cur.can_merge next then mergeRun { cur with end_time := next.end_time } rest
    else cur :: mergeRun next rest

/-- One group of the `chunk_by` processed by the merging fold. -/
def mergeGroup : List ScheduleEvent → List ScheduleEvent
  | [] => []
  | e :: rest => mergeRun e rest

/-- Embedding of `merge_events` (main.rs lines 368-398): stable-sort by the
full key tuple, group consecutive events sharing all non-temporal attributes,
fold each group merging abutting events, then stable-sort the result by
`start_time`. -/
def merge_events (events : List ScheduleEvent) : List ScheduleEvent :=
  let sorted := List.insertionSort keyRel events
  let merged := ((chunkBy sorted).map mergeGroup).flatten
  List.insertionSort startLe merged

/-- Strict interval overlap as the program tests it (main.rs line 406 and
line 996): `a.start < b.end && a.end > b.start`. -/
def Overlap (a b : ScheduleEvent) : Prop :=
  a.start_time < b.end_time ∧ a.end_time > b.start_time

instance decOverlap : ∀ a b, Decidable (Overlap a b) :=
  fun a b =>
    inferInstanceAs (Decidable (a.start_time < b.end_time ∧ a.end_time > b.start_time))

/-- A fragment of an existing event produced by the overlap resolver: fresh
id, a sub-range of the existing range, and the existing event's non-temporal
attributes (main.rs lines 412-420 and 427-435). -/
def fragment_of (idStr : String) (s e : Int) (ex : ScheduleEvent) : ScheduleEvent :=
  { id := idStr
    start_time := s
    end_time := e
    summary := ex.summary
    note := ex.note
    location := ex.location
    booked := ex.booked }

/-- Embedding of the loop of `split_overlapping_events` (main.rs lines
405-445): every existing event strictly overlapping `new_event` is replaced by
its (up to two) non-overlapping remainders with fresh ids; non-overlapping
events pass through.  `ids`/the counter model `Uuid::new_v4`. -/
def splitLoop (ids : Nat → String) (new_event : ScheduleEvent) :
    List ScheduleEvent → Nat → List ScheduleEvent × Nat
  | [], k => ([], k)
  | ex :: rest, k =>
    if new_event.start_time < ex.end_time ∧ new_event.end_time > ex.start_time then
      let before :=
        if new_event.start_time > ex.start_time then
          [fragment_of (ids k) ex.start_time new_event.start_time ex]
        else []
      let k1 := k + before.length
      let after :=
        if new_event.end_time < ex.end_time then
          [fragment_of (ids k1) new_event.end_time ex.end_time ex]
        else []
      let k2 := k1 + after.length
      let rec_result := splitLoop ids new_event rest k2
      (before ++ after ++ rec_result.1, rec_result.2)
    else
      let rec_result := splitLoop ids new_event rest k
      (ex :: rec_result.1, rec_result.2)

/-- State of `split_overlapping_events` just before the call to
`merge_events` (main.rs lines 447-452): keep/split results, the new event
appended, sorted by start time. -/
def split_phase (ids : Nat → String) (events : List ScheduleEvent)
    (new_event : ScheduleEvent) : List ScheduleEvent :=
  List.insertionSort startLe ((splitLoop ids new_event events 0).1 ++ [new_event])

/-- Embedding of `split_overlapping_events` (main.rs lines 400-459): split
overlapped events around the new one, append it, sort, then compact with
`merge_events`.  (The returned `overlaps_exist` flag and the printed diff are
I/O side channels and are not part of the stored-set semantics.) -/
def split_overlapping_events (ids : Nat → String) (events : List ScheduleEvent)
    (new_event : ScheduleEvent) : List ScheduleEvent :=
  merge_events (split_phase ids events new_event)

deriving instance DecidableEq for Except

/-- The conflict test of `is_slot_free` (main.rs line 996):
`start_time < event.end_time && end_time > event.start_time`. -/
def conflictsWith (start_time end_time : Int) (event : ScheduleEvent) : Bool :=
  decide (start_time < event.end_time ∧ end_time > event.start_time)

/-- Embedding of `is_slot_free` (main.rs lines 993-1005): collect the events
strictly overlapping `[start_time, end_time)` in stored order; `Ok(true)` if
none, otherwise `Err` with the conflicting events. -/
def is_slot_free (events : List ScheduleEvent) (start_time end_time : Int) :
    Except (List ScheduleEvent) Bool :=
  let conflicting := events.filter (conflictsWith start_time end_time)
  if conflicting.isEmpty then .ok true else .error conflicting

/-- The filter of `find_next_event_time` (main.rs line 1097): exact summary
match, start at or after `now`, and strictly longer than `duration` seconds. -/
def next_event_matches (project_task : String) (duration : Int) (now : Int)
    (event : ScheduleEvent) : Bool :=
  decide (event.summary = project_task)
    && decide (event.start_time ≥ now)
    && decide (event.end_time > event.start_time + duration)

/-- Embedding of `find_next_event_time` (main.rs lines 1093-1105): filter to
events with the exact summary, starting at or after `now`, strictly longer
than the duration, and take the first of the filtered list (in stored order);
`none` models the `NotFound` error. -/
def find_next_event_time (events : List ScheduleEvent) (project_task : String)
    (duration_minutes : Nat) (now : Int) : Option (Int × Int) :=
  let duration : Int := (duration_minutes : Int) * 60
  let target_events := events.filter (next_event_matches project_task duration now)
  match target_events with
  | [] => none
  | event :: _ => some (event.start_time, event.start_time + duration)

/-- Time of day of a UTC instant, as `DateTime::time` reports it. -/
def timeOfDay (t : Int) : NaiveTime :=
  let s := t.emod 86400
  { hour := (s / 3600).toNat, minute := ((s % 3600) / 60).toNat, second := (s % 60).toNat }

/-- Seconds since midnight of a wall-clock time. -/
def secondsOfTime (nt : NaiveTime) : Int :=
  (nt.hour : Int) * 3600 + (nt.minute : Int) * 60 + (nt.second : Int)

/-- `DateTime::with_time`: same UTC day, given time of day. -/
def withTime (t : Int) (nt : NaiveTime) : Int :=
  t - t.emod 86400 + secondsOfTime nt

/-- The candidate loop of `find_free_slot` (main.rs lines 1128-1136), with
explicit fuel standing in for the `while` loop (for `duration > 0` the fuel
chosen by `find_free_slot_core` is sufficient, see `slotLoop_fuel_irrelevant`
style lemmas below; for `duration = 0` the Rust loop does not terminate). -/
def slotLoop (events : List ScheduleEvent) (duration end_time : Int) :
    Nat → Int → Option (Int × Int)
  | 0, _ => none
  | fuel + 1, current_time =>
    if current_time + duration ≤ end_time then
      if (is_slot_free events current_time (current_time + duration)).isOk then
        some (current_time, current_time + duration)
      else slotLoop events duration end_time fuel (current_time + duration)
    else none

/-- Where the scan of `find_free_slot` actually starts (main.rs lines
1118-1126): the window start, unless it lies before `now`, in which case `now`
with its time of day rounded up to the interval (`with_time` keeps the same
UTC day). -/
def slot_search_start (start_time : Int) (rounding : Nat) (now : Int) : Int :=
  if start_time < now then
    withTime now (round_time_to_interval (timeOfDay now) rounding true)
  else start_time

/-- Embedding of `find_free_slot` (main.rs lines 1108-1137) after the
timespan has been parsed to the window `[start_time, end_time)`; `now` is the
current instant (`Utc::now` truncated to the minute). -/
def find_free_slot_core (events : List ScheduleEvent) (start_time end_time : Int)
    (duration_minutes : Nat) (rounding : Nat) (now : Int) : Option (Int × Int) :=
  let duration : Int := (duration_minutes : Int) * 60
  let current_time := slot_search_start start_time rounding now
  slotLoop events duration end_time ((end_time - current_time).toNat + 1) current_time

/-- Modelled from the spec (§4.6 / claim C8), for comparison with
`find_free_slot_core`: the claimed behaviour starts the scan at
`max(window_start, now rounded up to the rounding interval)` and otherwise
performs the same duration-stepped search. -/
def find_free_slot_claim (events : List ScheduleEvent) (start_time end_time : Int)
    (duration_minutes : Nat) (rounding : Nat) (now : Int) : Option (Int × Int) :=
  let duration : Int := (duration_minutes : Int) * 60
  let rounded_now := withTime now (round_time_to_interval (timeOfDay now) rounding true)
  let current_time := max start_time rounded_now
  slotLoop events duration end_time ((end_time - current_time).toNat + 1) current_time

/-- Options given to the `set` command.  `new_range` models the result of
`parse_datetime_range` on the given timespan/date (main.rs lines 1401-1413):
`none` when neither a timespan nor a date was supplied, in which case the code
keeps the original range. -/
structure SetOptions where
  location : Option String
  note : Option String
  booked : Option Bool
  new_range : Option (Int × Int)

/-- The `modified_event` computed by the `Commands::Set` arm (main.rs lines
1374-1418): start from a clone of the original event and update the requested
fields; an empty string clears note/location.  Returns the event together
with the `modified` flag. -/
def set_modified (original_event : ScheduleEvent) (opts : SetOptions) :
    ScheduleEvent × Bool :=
  let step0 := original_event
  let (step1, m1) :=
    match opts.location with
    | none => (step0, false)
    | some l => ({ step0 with location := if l = "" then none else some l }, true)
  let (step2, m2) :=
    match opts.note with
    | none => (step1, m1)
    | some n => ({ step1 with note := if n = "" then none else some n }, true)
  let (step3, m3) :=
    match opts.booked with
    | none => (step2, m2)
    | some b => ({ step2 with booked := b }, true)
  let (new_start_time, new_end_time) :=
    match opts.new_range with
    | some r => r
    | none => (original_event.start_time, original_event.end_time)
  if new_start_time ≠ original_event.start_time ∨ new_end_time ≠ original_event.end_time then
    ({ step3 with start_time := new_start_time, end_time := new_end_time }, true)
  else (step3, m3)

/-- Embedding of the mutating part of the `Commands::Set` arm (main.rs lines
1369-1439): locate the event by id (`none` models the `NotFound` error),
compute the modified event, and if anything changed remove the original and
re-insert the modified event through the resolver/compactor pipeline. -/
def set_event (ids : Nat → String) (events : List ScheduleEvent) (eventId : String)
    (opts : SetOptions) : Option (List ScheduleEvent) :=
  match events.findIdx? (fun event => event.id == eventId) with
  | none => none
  | some event_index =>
    match events[event_index]? with
    | none => none
    | some original_event =>
      let (modified_event, modified) := set_modified original_event opts
      if modified then
        some (split_overlapping_events ids (events.eraseIdx event_index) modified_event)
      else some events

/-- Truncation of a rational toward zero, modelling Rust's `as i64` cast of
an `f64` (the program's `(target * 60.0) as i64`, main.rs line 960). -/
def ratTrunc (q : ℚ) : Int := q.num.tdiv q.den

/-- Sign classification printed by the report (main.rs lines 966-970):
`diff > 0` prints the overrun line, anything else the underrun line. -/
inductive VarianceKind
  | overrun
  | underrun
deriving DecidableEq

/-- The target-variance block of `generate_report` (main.rs lines 959-983).
All chrono `Duration` values are in seconds; `num_minutes`/`num_hours`
truncate toward zero as chrono does.  The percentage (an `f64` in the source)
is modelled as an exact rational: every quantity the claims compare is far
from the rounding error of `f64`. -/
def generate_report_variance (sum_total_duration : Int) (target : ℚ) :
    VarianceKind × Int × Int × ℚ :=
  let target_minutes : Int := ratTrunc (target * 60)
  let target_duration : Int := target_minutes * 60
  let diff : Int := sum_total_duration - target_duration
  let diff_hours : Int := diff.tdiv 3600
  let diff_minutes : Int := (diff.tdiv 60).tmod 60
  let kind := if diff > 0 then VarianceKind.overrun else VarianceKind.underrun
  let percentage : ℚ :=
    if target_duration ≠ 0 then ((diff.tdiv 60 : Int) : ℚ) / ((target_minutes : Int) : ℚ) * 100
    else 0
  (kind, diff_hours, diff_minutes, percentage)

/-- Prefix test on character lists, modelling `str::starts_with`. -/
def strHasPrefix (p : List Char) : List Char → Bool
  | [] => p.isEmpty
  | c :: cs =>
    match p with
    | [] => true
    | q :: qs => if q = c then strHasPrefix qs cs else false

/-- The event filter of `generate_report` (main.rs lines 892-900): summary
starts with `project:` and the event's start instant falls in the report's
year and month.  `ym` models chrono's timezone-resolved `(year(), month())`
of an instant (the calendar conversion is library code outside the program). -/
def project_events (events : List ScheduleEvent) (project : String)
    (ym : Int → Int × Nat) (year : Int) (month : Nat) : List ScheduleEvent :=
  events.filter (fun event =>
    strHasPrefix (project.data ++ [':']) event.summary.data
      && decide ((ym event.start_time).1 = year)
      && decide ((ym event.start_time).2 = month))

/-- Total logged seconds of a list of events (`event.end_time - event.start_time`
summed, as `generate_report` accumulates per task and then over tasks). -/
def sum_durations (events : List ScheduleEvent) : Int :=
  (events.map (fun event => event.end_time - event.start_time)).sum

/-- The report numbers for one project/month: total seconds over the filtered
events and, when a target is supplied, the variance block. -/
def generate_report_core (events : List ScheduleEvent) (project : String)
    (ym : Int → Int × Nat) (year : Int) (month : Nat) (target : Option ℚ) :
    Int × Option (VarianceKind × Int × Int × ℚ) :=
  let evs := project_events events project ym year month
  let total := sum_durations evs
  (total, target.map (fun t => generate_report_variance total t))

/-- The data-model invariant on a single event (spec §3): `end > start`. -/
def EndAfterStart (event : ScheduleEvent) : Prop :=
  event.start_time < event.end_time

/-- Every event of the list satisfies `end > start`. -/
def AllPositive (events : List ScheduleEvent) : Prop :=
  ∀ event ∈ events, EndAfterStart event

/-- The stored-set invariant (spec §3): no two distinct events strictly
overlap. -/
def NoOverlaps (events : List ScheduleEvent) : Prop :=
  events.Pairwise (fun a b => ¬ Overlap a b)

instance decEndAfterStart : ∀ e, Decidable (EndAfterStart e) :=
  fun e => inferInstanceAs (Decidable (e.start_time < e.end_time))

instance decAllPositive : ∀ l, Decidable (AllPositive l) :=
  fun l => inferInstanceAs (Decidable (∀ e ∈ l, EndAfterStart e))

instance decNoOverlaps : ∀ l, Decidable (NoOverlaps l) :=
  fun l => inferInstanceAs (Decidable (l.Pairwise (fun a b => ¬ Overlap a b)))

/-- A sequence of insertions, each running the full resolver + compactor
pipeline, as the `add`/`quickadd`/`todo` commands do. -/
def insertAll (ids : Nat → String) (events : List ScheduleEvent)
    (news : List ScheduleEvent) : List ScheduleEvent :=
  news.foldl (fun acc e => split_overlapping_events ids acc e) events

/-- Equality of the `merge_events` grouping key together with the start
time — the tie class of the full sort key `cmp_key`. -/
def sameKeyStartB (a b : ScheduleEvent) : Bool :=
  sameKeyB a b && decide (a.start_time = b.start_time)

/-- A deterministic id supply standing in for `Uuid::new_v4` in concrete
computations. -/
def ids0 : Nat → String := fun n => "fresh-" ++ toString n

/-- Concrete events for the inserted-sequence counterexample: a zero-length
event (the `add` command accepts the timespan `14:00-14:00`, which rounds to
itself), then two abutting events with identical attributes around it. -/
def evZero : ScheduleEvent :=
  { id := "b", start_time := 840, end_time := 840, summary := "B:Y"
    note := none, location := none, booked := false }

def evLeft : ScheduleEvent :=
  { id := "a1", start_time := 780, end_time := 840, summary := "A:X"
    note := none, location := none, booked := false }

def evRight : ScheduleEvent :=
  { id := "a2", start_time := 840, end_time := 900, summary := "A:X"
    note := none, location := none, booked := false }

/-- A stored event `[09:00, 10:00)` used for the merge-absorption
counterexample. -/
def evStored : ScheduleEvent :=
  { id := "x", start_time := 32400, end_time := 36000, summary := "A:B"
    note := none, location := none, booked := true }

/-- An incoming event `[10:00, 11:00)` abutting `evStored` with identical
attributes. -/
def evIncoming : ScheduleEvent :=
  { id := "y", start_time := 36000, end_time := 39600, summary := "A:B"
    note := none, location := none, booked := true }

/-- The stored event modified by the `set` counterexample. -/
def evSetTarget : ScheduleEvent :=
  { id := "a", start_time := 600, end_time := 660, summary := "P:T"
    note := none, location := none, booked := false }

/-- Two qualifying events stored out of start order, for the next-match
counterexample. -/
def evLate : ScheduleEvent :=
  { id := "f1", start_time := 200, end_time := 2000, summary := "A:B"
    note := none, location := none, booked := false }

def evEarly : ScheduleEvent :=
  { id := "f2", start_time := 100, end_time := 1900, summary := "A:B"
    note := none, location := none, booked := false }

/-- A booked event filling `[09:00, 12:00)` (seconds of day), for the slot
search example. -/
def evBooked : ScheduleEvent :=
  { id := "bk", start_time := 32400, end_time := 43200, summary := "A:B"
    note := none, location := none, booked := true }

/-- A report event of duration 5h30m (19800 seconds). -/
def evReport : ScheduleEvent :=
  { id := "r", start_time := 0, end_time := 19800, summary := "P:T"
    note := none, location := none, booked := true }

/-- A year/month resolver putting every instant in May 2024 (the concrete
reports below only need one month). -/
def ymAll : Int → Int × Nat := fun _ => (2024, 5)

/-- The full sort key of `merge_events` as a value:
`(summary, note, location, booked, start_time)`. -/
def key5 (e : ScheduleEvent) : String × Option String × Option String × Bool × Int :=
  (e.summary, e.note, e.location, e.booked, e.start_time)

/-- A well-formed `chunk_by` group: nonempty, and every member shares the
grouping key of the first. -/
def ChunkUniform : List ScheduleEvent → Prop
  | [] => False
  | h :: t => ∀ x ∈ t, sameKeyB h x = true

/-- Agreement of two events on every field except `end_time` and `id` —
exactly what the merging fold preserves about the fold leader. -/
def attrStartEq (a b : ScheduleEvent) : Prop :=
  a.start_time = b.start_time ∧ a.summary = b.summary ∧ a.note = b.note ∧
    a.location = b.location ∧ a.booked = b.booked

/-- Soundness of a three-way comparison relative to a key function: `eq`
detects key equality, `gt` mirrors `lt`, `lt` is transitive, and the
comparison depends only on the keys. -/
structure LawfulCmpOn (α : Type) (κ : Type) (cmp : α → α → Ordering) (key : α → κ) : Prop where
  eq_iff : ∀ a b, cmp a b = Ordering.eq ↔ key a = key b
  gt_iff : ∀ a b, cmp a b = Ordering.gt ↔ cmp b a = Ordering.lt
  lt_trans : ∀ a b c, cmp a b = Ordering.lt → cmp b c = Ordering.lt → cmp a c = Ordering.lt
  congr_keys : ∀ a a' b b', key a = key a' → key b = key b' → cmp a b = cmp a' b'

theorem char_eq_of_toNat_eq {a b : Char} (h : a.toNat = b.toNat) : a = b :=
  Char.eq_of_val_eq (UInt32.ext h)

theorem strCmpL_eq_iff : ∀ a b : List Char, strCmpL a b = Ordering.eq ↔ a = b := by
  intro a
  induction a with
  | nil => intro b; cases b <;> simp [strCmpL]
  | cons x xs ih =>
    intro b
    cases b with
    | nil => simp [strCmpL]
    | cons y ys =>
      simp only [strCmpL]
      by_cases h1 : x.toNat < y.toNat
      · rw [if_pos h1]
        constructor
        · intro h; cases h
        · intro h
          injection h with hx _
          subst hx
          exact absurd h1 (Nat.lt_irrefl _)
      · by_cases h2 : y.toNat < x.toNat
        · rw [if_neg h1, if_pos h2]
          constructor
          · intro h; cases h
          · intro h
            injection h with hx _
            subst hx
            exact absurd h2 (Nat.lt_irrefl _)
        · rw [if_neg h1, if_neg h2]
          have hxy : x = y :=
            char_eq_of_toNat_eq (Nat.le_antisymm (Nat.le_of_not_lt h2) (Nat.le_of_not_lt h1))
          subst hxy
          rw [ih ys]
          simp

theorem strCmpL_gt_iff : ∀ a b : List Char, strCmpL a b = Ordering.gt ↔ strCmpL b a = Ordering.lt := by
  intro a
  induction a with
  | nil => intro b; cases b <;> simp [strCmpL]
  | cons x xs ih =>
    intro b
    cases b with
    | nil => simp [strCmpL]
    | cons y ys =>
      simp only [strCmpL]
      by_cases h1 : x.toNat < y.toNat
      · have h2 : ¬ y.toNat < x.toNat := Nat.lt_asymm h1
        rw [if_pos h1, if_neg h2, if_pos h1]
        constructor <;> (intro h; cases h)
      · by_cases h2 : y.toNat < x.toNat
        · rw [if_neg h1, if_pos h2, if_pos h2]
          simp
        · rw [if_neg h1, if_neg h2, if_neg h2, if_neg h1]
          exact ih ys

theorem strCmpL_lt_trans :
    ∀ a b c : List Char, strCmpL a b = Ordering.lt → strCmpL b c = Ordering.lt →
      strCmpL a c = Ordering.lt := by
  intro a
  induction a with
  | nil =>
    intro b c hab hbc
    cases b with
    | nil => exact hbc
    | cons y ys =>
      cases c with
      | nil => simp [strCmpL] at hbc
      | cons z zs => simp [strCmpL]
  | cons x xs ih =>
    intro b c hab hbc
    cases b with
    | nil => simp [strCmpL] at hab
    | cons y ys =>
      cases c with
      | nil => simp [strCmpL] at hbc
      | cons z zs =>
        simp only [strCmpL] at hab hbc ⊢
        by_cases h1 : x.toNat < y.toNat
        · by_cases h3 : y.toNat < z.toNat
          · rw [if_pos (Nat.lt_trans h1 h3)]
          · by_cases h4 : z.toNat < y.toNat
            · rw [if_neg h3, if_pos h4] at hbc; cases hbc
            · have : y.toNat = z.toNat := Nat.le_antisymm (Nat.le_of_not_lt h4) (Nat.le_of_not_lt h3)
              rw [if_pos (this ▸ h1)]
        · by_cases h2 : y.toNat < x.toNat
          · rw [if_neg h1, if_pos h2] at hab; cases hab
          · have hxy : x.toNat = y.toNat := Nat.le_antisymm (Nat.le_of_not_lt h2) (Nat.le_of_not_lt h1)
            rw [if_neg h1, if_neg h2] at hab
            by_cases h3 : y.toNat < z.toNat
            · rw [if_pos (hxy ▸ h3)]
            · by_cases h4 : z.toNat < y.toNat
              · rw [if_neg h3, if_pos h4] at hbc; cases hbc
              · rw [if_neg h3, if_neg h4] at hbc
                have hyz : y.toNat = z.toNat := Nat.le_antisymm (Nat.le_of_not_lt h4) (Nat.le_of_not_lt h3)
                have hxz : ¬ x.toNat < z.toNat := by omega
                have hzx : ¬ z.toNat < x.toNat := by omega
                rw [if_neg hxz, if_neg hzx]
                exact ih ys zs hab hbc

theorem lawful_strCmpL : LawfulCmpOn (List Char) (List Char) strCmpL id where
  eq_iff := strCmpL_eq_iff
  gt_iff := strCmpL_gt_iff
  lt_trans := strCmpL_lt_trans
  congr_keys := by intro a a' b b' ha hb; simp only [id] at ha hb; rw [ha, hb]

theorem string_eq_of_data_eq {a b : String} (h : a.data = b.data) : a = b := by
  cases a; cases b; simp_all

theorem lawful_strCmp : LawfulCmpOn String String strCmp id where
  eq_iff := by
    intro a b
    rw [strCmp, lawful_strCmpL.eq_iff]
    simp only [id_eq]
    constructor
    · exact fun h => string_eq_of_data_eq h
    · intro h; rw [h]
  gt_iff := by intro a b; exact lawful_strCmpL.gt_iff a.data b.data
  lt_trans := by intro a b c; exact lawful_strCmpL.lt_trans a.data b.data c.data
  congr_keys := by intro a a' b b' ha hb; simp only [id] at ha hb; rw [ha, hb]

theorem lawful_optStrCmp : LawfulCmpOn (Option String) (Option String) optStrCmp id where
  eq_iff := by
    intro a b
    cases a <;> cases b <;> simp [optStrCmp]
    rw [lawful_strCmp.eq_iff]
    simp
  gt_iff := by
    intro a b
    cases a <;> cases b <;> simp [optStrCmp]
    exact lawful_strCmp.gt_iff _ _
  lt_trans := by
    intro a b c hab hbc
    cases a <;> cases b <;> cases c <;> simp_all [optStrCmp]
    exact lawful_strCmp.lt_trans _ _ _ hab hbc
  congr_keys := by intro a a' b b' ha hb; simp only [id] at ha hb; rw [ha, hb]

theorem lawful_boolCmp : LawfulCmpOn Bool Bool boolCmp id where
  eq_iff := by intro a b; cases a <;> cases b <;> simp [boolCmp]
  gt_iff := by intro a b; cases a <;> cases b <;> simp [boolCmp]
  lt_trans := by intro a b c hab hbc; cases a <;> cases b <;> cases c <;> simp_all [boolCmp]
  congr_keys := by intro a a' b b' ha hb; simp only [id] at ha hb; rw [ha, hb]

theorem lawful_intCmp : LawfulCmpOn Int Int intCmp id where
  eq_iff := by
    intro a b
    simp only [intCmp, id_eq]
    by_cases h1 : a < b
    · rw [if_pos h1]
      constructor
      · intro h; cases h
      · intro h; subst h; exact absurd h1 (lt_irrefl a)
    · by_cases h2 : b < a
      · rw [if_neg h1, if_pos h2]
        constructor
        · intro h; cases h
        · intro h; subst h; exact absurd h2 (lt_irrefl a)
      · rw [if_neg h1, if_neg h2]
        constructor
        · intro _; omega
        · intro _; rfl
  gt_iff := by
    intro a b
    simp only [intCmp]
    by_cases h1 : a < b
    · have h2 : ¬ b < a := by omega
      rw [if_pos h1, if_neg h2, if_pos h1]
      constructor <;> (intro h; cases h)
    · by_cases h2 : b < a
      · rw [if_neg h1, if_pos h2, if_pos h2]
        simp
      · rw [if_neg h1, if_neg h2, if_neg h2, if_neg h1]
        constructor <;> (intro h; cases h)
  lt_trans := by
    intro a b c hab hbc
    simp only [intCmp] at hab hbc ⊢
    by_cases h1 : a < b
    · by_cases h3 : b < c
      · rw [if_pos (Int.lt_trans h1 h3)]
      · by_cases h4 : c < b
        · rw [if_neg h3, if_pos h4] at hbc; cases hbc
        · have : b = c := by omega
          rw [if_pos (this ▸ h1)]
    · by_cases h2 : b < a
      · rw [if_neg h1, if_pos h2] at hab; cases hab
      · rw [if_neg h1, if_neg h2] at hab; cases hab
  congr_keys := by intro a a' b b' ha hb; simp only [id] at ha hb; rw [ha, hb]

theorem LawfulCmpOn.comap {β κ : Type} {cmp : β → β → Ordering} {key : β → κ}
    (h : LawfulCmpOn β κ cmp key) {α : Type} (f : α → β) :
    LawfulCmpOn α κ (fun a b => cmp (f a) (f b)) (fun a => key (f a)) where
  eq_iff := fun a b => h.eq_iff (f a) (f b)
  gt_iff := fun a b => h.gt_iff (f a) (f b)
  lt_trans := fun a b c => h.lt_trans (f a) (f b) (f c)
  congr_keys := fun a a' b b' ha hb => h.congr_keys (f a) (f a') (f b) (f b') ha hb

theorem LawfulCmpOn.then_comp {α κ1 κ2 : Type} {c1 : α → α → Ordering} {k1 : α → κ1}
    {c2 : α → α → Ordering} {k2 : α → κ2}
    (h1 : LawfulCmpOn α κ1 c1 k1) (h2 : LawfulCmpOn α κ2 c2 k2) :
    LawfulCmpOn α (κ1 × κ2) (fun a b => (c1 a b).then (c2 a b)) (fun a => (k1 a, k2 a)) where
  eq_iff := by
    intro a b
    simp only [Prod.mk.injEq]
    rcases hc : c1 a b with _ | _ | _
    · simp only [Ordering.then]
      constructor
      · intro h; cases h
      · intro h
        have : c1 a b = Ordering.eq := (h1.eq_iff a b).mpr h.1
        rw [hc] at this; cases this
    · simp only [Ordering.then]
      rw [h2.eq_iff]
      have : k1 a = k1 b := (h1.eq_iff a b).mp hc
      simp [this]
    · simp only [Ordering.then]
      constructor
      · intro h; cases h
      · intro h
        have : c1 a b = Ordering.eq := (h1.eq_iff a b).mpr h.1
        rw [hc] at this; cases this
  gt_iff := by
    intro a b
    rcases hc : c1 a b with _ | _ | _
    · have hba : c1 b a = Ordering.gt := (h1.gt_iff b a).mpr hc
      rw [hba]
      simp only [Ordering.then]
      constructor <;> (intro h; cases h)
    · have hk : k1 a = k1 b := (h1.eq_iff a b).mp hc
      have hba : c1 b a = Ordering.eq := (h1.eq_iff b a).mpr hk.symm
      rw [hba]
      simp only [Ordering.then]
      exact h2.gt_iff a b
    · have hba : c1 b a = Ordering.lt := (h1.gt_iff a b).mp hc
      rw [hba]
      simp only [Ordering.then]
  lt_trans := by
    intro a b c hab hbc
    show (c1 a c).then (c2 a c) = Ordering.lt
    have hab' : (c1 a b).then (c2 a b) = Ordering.lt := hab
    have hbc' : (c1 b c).then (c2 b c) = Ordering.lt := hbc
    rcases hc1 : c1 a b with _ | _ | _
    · rcases hc2 : c1 b c with _ | _ | _
      · rw [h1.lt_trans a b c hc1 hc2]; rfl
      · have hk : k1 b = k1 c := (h1.eq_iff b c).mp hc2
        have h3 : c1 a c = c1 a b := h1.congr_keys a a c b rfl hk.symm
        rw [h3, hc1]; rfl
      · rw [hc2] at hbc'; simp only [Ordering.then] at hbc'; cases hbc'
    · have hk : k1 a = k1 b := (h1.eq_iff a b).mp hc1
      have h3 : c1 a c = c1 b c := h1.congr_keys a b c c hk rfl
      rcases hc2 : c1 b c with _ | _ | _
      · rw [h3, hc2]; rfl
      · rw [h3, hc2]
        simp only [Ordering.then]
        rw [hc1] at hab'
        rw [hc2] at hbc'
        simp only [Ordering.then] at hab' hbc'
        exact h2.lt_trans a b c hab' hbc'
      · rw [hc2] at hbc'; simp only [Ordering.then] at hbc'; cases hbc'
    · rw [hc1] at hab'; simp only [Ordering.then] at hab'; cases hab'
  congr_keys := by
    intro a a' b b' ha hb
    simp only [Prod.mk.injEq] at ha hb
    rw [h1.congr_keys a a' b b' ha.1 hb.1, h2.congr_keys a a' b b' ha.2 hb.2]

theorem lawful_cmp_key :
    LawfulCmpOn ScheduleEvent (String × Option String × Option String × Bool × Int)
      cmp_key key5 :=
  (lawful_strCmp.comap (fun e : ScheduleEvent => e.summary)).then_comp
    ((lawful_optStrCmp.comap (fun e : ScheduleEvent => e.note)).then_comp
      ((lawful_optStrCmp.comap (fun e : ScheduleEvent => e.location)).then_comp
        ((lawful_boolCmp.comap (fun e : ScheduleEvent => e.booked)).then_comp
          (lawful_intCmp.comap (fun e : ScheduleEvent => e.start_time)))))

theorem keyRel_total : ∀ a b : ScheduleEvent, keyRel a b ∨ keyRel b a := by
  intro a b
  by_cases h : cmp_key a b = Ordering.gt
  · right
    have hlt : cmp_key b a = Ordering.lt := (lawful_cmp_key.gt_iff a b).mp h
    intro hba
    rw [hlt] at hba
    cases hba
  · left; exact h

theorem keyRel_trans : ∀ a b c : ScheduleEvent, keyRel a b → keyRel b c → keyRel a c := by
  intro a b c hab hbc
  unfold keyRel at hab hbc ⊢
  rcases h1 : cmp_key a b with _ | _ | _
  · rcases h2 : cmp_key b c with _ | _ | _
    · have := lawful_cmp_key.lt_trans a b c h1 h2
      rw [this]; intro hx; cases hx
    · have hk : key5 b = key5 c := (lawful_cmp_key.eq_iff b c).mp h2
      have : cmp_key a c = cmp_key a b := lawful_cmp_key.congr_keys a a c b rfl hk.symm
      rw [this, h1]; intro hx; cases hx
    · exact absurd h2 hbc
  · have hk : key5 a = key5 b := (lawful_cmp_key.eq_iff a b).mp h1
    have : cmp_key a c = cmp_key b c := lawful_cmp_key.congr_keys a b c c hk rfl
    rw [this]; exact hbc
  · exact absurd h1 hab

instance : IsTotal ScheduleEvent keyRel := ⟨keyRel_total⟩

instance : IsTrans ScheduleEvent keyRel := ⟨keyRel_trans⟩

instance : IsTotal ScheduleEvent startLe := ⟨fun a b => Int.le_total a.start_time b.start_time⟩

instance : IsTrans ScheduleEvent startLe := ⟨fun _ _ _ h1 h2 => Int.le_trans h1 h2⟩

theorem keyRel_tie {a b : ScheduleEvent} (hab : keyRel a b) (hba : keyRel b a) :
    key5 a = key5 b := by
  rcases h1 : cmp_key a b with _ | _ | _
  · exact absurd ((lawful_cmp_key.gt_iff b a).mpr h1) hba
  · exact (lawful_cmp_key.eq_iff a b).mp h1
  · exact absurd h1 hab

theorem keyRel_of_key5_eq {a b : ScheduleEvent} (h : key5 a = key5 b) : keyRel a b := by
  intro hgt
  have : cmp_key a b = Ordering.eq := (lawful_cmp_key.eq_iff a b).mpr h
  rw [this] at hgt; cases hgt

theorem sameKeyStartB_iff (a b : ScheduleEvent) :
    sameKeyStartB a b = true ↔ key5 a = key5 b := by
  simp only [sameKeyStartB, sameKeyB, key5, Bool.and_eq_true, decide_eq_true_eq,
    Prod.mk.injEq]
  tauto

theorem sameKeyB_iff (a b : ScheduleEvent) :
    sameKeyB a b = true ↔
      a.summary = b.summary ∧ a.note = b.note ∧ a.location = b.location ∧ a.booked = b.booked := by
  simp only [sameKeyB, Bool.and_eq_true, decide_eq_true_eq, and_assoc]

theorem sameKeyStartB_self (a : ScheduleEvent) : sameKeyStartB a a = true :=
  (sameKeyStartB_iff a a).mpr rfl

theorem sameKeyStartB_congr {k k' : ScheduleEvent} (h : key5 k = key5 k')
    (x : ScheduleEvent) : sameKeyStartB x k = sameKeyStartB x k' := by
  cases hx : sameKeyStartB x k'
  · cases hy : sameKeyStartB x k
    · rfl
    · have := (sameKeyStartB_iff x k).mp hy
      rw [h] at this
      rw [(sameKeyStartB_iff x k').mpr this] at hx
      cases hx
  · have := (sameKeyStartB_iff x k').mp hx
    rw [← h] at this
    exact (sameKeyStartB_iff x k).mpr this

/-- Stability of insertion sort, robust to duplicates: for any predicate `p`
selecting one tie class of `r`, the sub-sequence of `p`-elements is preserved
exactly.  (Rust's `sort_by`/`sort_by_key` guarantee exactly this.) -/
theorem filter_orderedInsert {α : Type} (r : α → α → Prop) [DecidableRel r] (p : α → Bool)
    (a : α) (l : List α) (h : p a = true → ∀ b, p b = true → r a b) :
    List.filter p (List.orderedInsert r a l) =
      if p a = true then a :: List.filter p l else List.filter p l := by
  induction l with
  | nil => by_cases hpa : p a = true <;> simp [List.orderedInsert, hpa]
  | cons b l ih =>
    simp only [List.orderedInsert]
    by_cases hr : r a b
    · rw [if_pos hr]
      by_cases hpa : p a = true <;> simp [List.filter_cons, hpa]
    · rw [if_neg hr]
      by_cases hpb : p b = true
      · have hpa : ¬ p a = true := fun hpa => hr (h hpa b hpb)
        simp [List.filter_cons, hpa, hpb, ih]
      · simp [List.filter_cons, hpb, ih]

theorem filter_insertionSort {α : Type} (r : α → α → Prop) [DecidableRel r] (p : α → Bool)
    (l : List α) (h : ∀ a, p a = true → ∀ b, p b = true → r a b) :
    List.filter p (List.insertionSort r l) = List.filter p l := by
  induction l with
  | nil => rfl
  | cons a l ih =>
    simp only [List.insertionSort]
    rw [filter_orderedInsert r p a _ (h a), ih, List.filter_cons]

/-- Two `keyRel`-sorted lists whose tie-class sub-sequences all agree are
equal: sortedness places the classes in key order, and the class content is
pinned by the filters.  This is the uniqueness of a stable sort. -/
theorem eq_of_sorted_of_classFilter_eq :
    ∀ l1 l2 : List ScheduleEvent,
      l1.Pairwise keyRel → l2.Pairwise keyRel →
      (∀ k : ScheduleEvent,
        l1.filter (fun x => sameKeyStartB x k) = l2.filter (fun x => sameKeyStartB x k)) →
      l1 = l2 := by
  intro l1
  induction l1 with
  | nil =>
    intro l2 _ _ hf
    cases l2 with
    | nil => rfl
    | cons b t2 =>
      have hb := hf b
      rw [List.filter_cons] at hb
      rw [if_pos (sameKeyStartB_self b)] at hb
      cases hb
  | cons a t1 ih =>
    intro l2 hs1 hs2 hf
    cases l2 with
    | nil =>
      have hx := hf a
      rw [List.filter_cons] at hx
      rw [if_pos (sameKeyStartB_self a)] at hx
      cases hx
    | cons b t2 =>
      have hP := hf a
      rw [List.filter_cons, if_pos (sameKeyStartB_self a)] at hP
      have hQ := hf b
      rw [List.filter_cons (x := b), if_pos (sameKeyStartB_self b)] at hQ
      -- first, the heads lie in the same tie class
      have hexc : ∃ c ∈ b :: t2, key5 c = key5 a := by
        have : a ∈ List.filter (fun x => sameKeyStartB x a) (b :: t2) := by
          rw [← hP]; exact List.mem_cons_self a _
        rcases List.mem_filter.mp this with ⟨hmem, hsk⟩
        exact ⟨a, hmem, rfl⟩
      have hexd : ∃ d ∈ a :: t1, key5 d = key5 b := by
        have : b ∈ List.filter (fun x => sameKeyStartB x b) (a :: t1) := by
          rw [hQ]; exact List.mem_cons_self b _
        rcases List.mem_filter.mp this with ⟨hmem, hsk⟩
        exact ⟨b, hmem, rfl⟩
      have hba : keyRel b a := by
        rcases hexc with ⟨c, hc, hkey⟩
        rcases List.mem_cons.mp hc with hcb | hct
        · subst hcb; exact keyRel_of_key5_eq hkey
        · have h1 : keyRel b c := (List.pairwise_cons.mp hs2).1 c hct
          intro hgt
          rw [lawful_cmp_key.congr_keys b b a c rfl hkey.symm] at hgt
          exact h1 hgt
      have hab : keyRel a b := by
        rcases hexd with ⟨d, hd, hkey⟩
        rcases List.mem_cons.mp hd with hda | hdt
        · subst hda; exact keyRel_of_key5_eq hkey
        · have h1 : keyRel a d := (List.pairwise_cons.mp hs1).1 d hdt
          intro hgt
          rw [lawful_cmp_key.congr_keys a a b d rfl hkey.symm] at hgt
          exact h1 hgt
      have hkeyab : key5 a = key5 b := keyRel_tie hab hba
      -- heads are equal, class filters of the tails agree
      rw [List.filter_cons (x := b),
        if_pos ((sameKeyStartB_iff b a).mpr hkeyab.symm)] at hP
      injection hP with hhead htails
      subst hhead
      have htl : ∀ k : ScheduleEvent,
          t1.filter (fun x => sameKeyStartB x k) = t2.filter (fun x => sameKeyStartB x k) := by
        intro k
        by_cases hk : sameKeyStartB a k = true
        · have hkk : key5 a = key5 k := (sameKeyStartB_iff a k).mp hk
          calc t1.filter (fun x => sameKeyStartB x k)
              = t1.filter (fun x => sameKeyStartB x a) := by
                exact List.filter_congr (fun x _ => sameKeyStartB_congr hkk.symm x)
            _ = t2.filter (fun x => sameKeyStartB x a) := htails
            _ = t2.filter (fun x => sameKeyStartB x k) := by
                exact List.filter_congr (fun x _ => (sameKeyStartB_congr hkk.symm x).symm)
        · have hk' := hf k
          rw [List.filter_cons, if_neg hk, List.filter_cons, if_neg hk] at hk'
          exact hk'
      exact congrArg (a :: ·)
        (ih t2 (List.pairwise_cons.mp hs1).2 (List.pairwise_cons.mp hs2).2 htl)

theorem sameKeyB_refl (a : ScheduleEvent) : sameKeyB a a = true :=
  (sameKeyB_iff a a).mpr ⟨rfl, rfl, rfl, rfl⟩

theorem sameKeyB_symm {a b : ScheduleEvent} (h : sameKeyB a b = true) : sameKeyB b a = true := by
  rcases (sameKeyB_iff a b).mp h with ⟨h1, h2, h3, h4⟩
  exact (sameKeyB_iff b a).mpr ⟨h1.symm, h2.symm, h3.symm, h4.symm⟩

theorem sameKeyB_trans {a b c : ScheduleEvent} (h1 : sameKeyB a b = true)
    (h2 : sameKeyB b c = true) : sameKeyB a c = true := by
  rcases (sameKeyB_iff a b).mp h1 with ⟨p1, p2, p3, p4⟩
  rcases (sameKeyB_iff b c).mp h2 with ⟨q1, q2, q3, q4⟩
  exact (sameKeyB_iff a c).mpr ⟨p1.trans q1, p2.trans q2, p3.trans q3, p4.trans q4⟩

theorem chunkBy_cons_of_nil {rest : List ScheduleEvent} (e : ScheduleEvent)
    (h : chunkBy rest = []) : chunkBy (e :: rest) = [[e]] := by
  simp only [chunkBy, h]

theorem chunkBy_cons_of_nilhead {rest : List ScheduleEvent} (e : ScheduleEvent)
    {gs : List (List ScheduleEvent)} (h : chunkBy rest = [] :: gs) :
    chunkBy (e :: rest) = [e] :: gs := by
  simp only [chunkBy, h]

theorem chunkBy_cons_of_same {rest : List ScheduleEvent} (e : ScheduleEvent)
    {f : ScheduleEvent} {g : List ScheduleEvent} {gs : List (List ScheduleEvent)}
    (h : chunkBy rest = (f :: g) :: gs) (hk : sameKeyB e f = true) :
    chunkBy (e :: rest) = (e :: f :: g) :: gs := by
  simp only [chunkBy, h]
  rw [if_pos hk]

theorem chunkBy_cons_of_diff {rest : List ScheduleEvent} (e : ScheduleEvent)
    {f : ScheduleEvent} {g : List ScheduleEvent} {gs : List (List ScheduleEvent)}
    (h : chunkBy rest = (f :: g) :: gs) (hk : ¬ sameKeyB e f = true) :
    chunkBy (e :: rest) = [e] :: (f :: g) :: gs := by
  simp only [chunkBy, h]
  rw [if_neg hk]

theorem chunkBy_flatten : ∀ l : List ScheduleEvent, (chunkBy l).flatten = l := by
  intro l
  induction l with
  | nil => rfl
  | cons e rest ih =>
    rcases h : chunkBy rest with _ | ⟨c, gs⟩
    · rw [h] at ih
      rw [chunkBy_cons_of_nil e h]
      simp only [List.flatten_nil] at ih
      simp [← ih]
    · rw [h] at ih
      cases c with
      | nil =>
        rw [chunkBy_cons_of_nilhead e h]
        simp only [List.flatten_cons, List.nil_append] at ih
        simp [ih]
      | cons f g =>
        by_cases hk : sameKeyB e f
        · rw [chunkBy_cons_of_same e h hk]
          simp only [List.flatten_cons] at ih ⊢
          simp [ih]
        · rw [chunkBy_cons_of_diff e h hk]
          simp only [List.flatten_cons] at ih ⊢
          simp [ih]

theorem chunkBy_uniform : ∀ l : List ScheduleEvent, ∀ c ∈ chunkBy l, ChunkUniform c := by
  intro l
  induction l with
  | nil => intro c hc; cases hc
  | cons e rest ih =>
    intro c hc
    rcases h : chunkBy rest with _ | ⟨c0, gs⟩
    · rw [chunkBy_cons_of_nil e h] at hc
      rcases List.mem_singleton.mp hc with rfl
      intro x hx; cases hx
    · cases c0 with
      | nil => exact absurd (ih [] (h ▸ List.mem_cons_self _ _)) (fun hfalse => hfalse)
      | cons f g =>
        by_cases hk : sameKeyB e f
        · rw [chunkBy_cons_of_same e h hk] at hc
          rcases List.mem_cons.mp hc with rfl | hgs
          · intro x hx
            rcases List.mem_cons.mp hx with rfl | hxg
            · exact hk
            · exact sameKeyB_trans hk (ih (f :: g) (h ▸ List.mem_cons_self _ _) x hxg)
          · exact ih c (h ▸ List.mem_cons_of_mem _ hgs)
        · rw [chunkBy_cons_of_diff e h hk] at hc
          rcases List.mem_cons.mp hc with rfl | hrest
          · intro x hx; cases hx
          · exact ih c (h ▸ hrest)

theorem chunkBy_cons_shape (e : ScheduleEvent) (rest : List ScheduleEvent) :
    ∃ g gs, chunkBy (e :: rest) = (e :: g) :: gs := by
  rcases h : chunkBy rest with _ | ⟨c0, gs⟩
  · exact ⟨[], [], chunkBy_cons_of_nil e h⟩
  · cases c0 with
    | nil => exact ⟨[], gs, chunkBy_cons_of_nilhead e h⟩
    | cons f g =>
      by_cases hk : sameKeyB e f
      · exact ⟨f :: g, gs, chunkBy_cons_of_same e h hk⟩
      · exact ⟨[], (f :: g) :: gs, chunkBy_cons_of_diff e h hk⟩

theorem chunkBy_chain :
    ∀ l : List ScheduleEvent,
      List.Chain' (fun c d => ∀ x y, c.head? = some x → d.head? = some y → sameKeyB x y = false)
        (chunkBy l) := by
  intro l
  induction l with
  | nil => simp [chunkBy]
  | cons e rest ih =>
    rcases h : chunkBy rest with _ | ⟨c0, gs⟩
    · rw [chunkBy_cons_of_nil e h]
      simp
    · rw [h] at ih
      cases c0 with
      | nil =>
        have : ChunkUniform [] := chunkBy_uniform rest [] (h ▸ List.mem_cons_self _ _)
        exact absurd this (fun hfalse => hfalse)
      | cons f g =>
        by_cases hk : sameKeyB e f
        · rw [chunkBy_cons_of_same e h hk]
          rcases List.chain'_cons'.mp ih with ⟨hhead, htail⟩
          refine List.chain'_cons'.mpr ⟨?_, htail⟩
          intro d hd x y hx hy
          injection hx with hx
          subst hx
          have hf : sameKeyB f y = false := hhead d hd f y rfl hy
          cases hfy : sameKeyB e y
          · rfl
          · rw [sameKeyB_trans (sameKeyB_symm hk) hfy] at hf
            cases hf
        · rw [chunkBy_cons_of_diff e h hk]
          refine List.chain'_cons'.mpr ⟨?_, ih⟩
          intro d hd x y hx hy
          injection hx with hx
          subst hx
          simp only [List.head?_cons, Option.mem_def, Option.some_inj] at hd
          subst hd
          rw [List.head?_cons] at hy
          injection hy with hy
          subst hy
          simpa using hk

theorem chunkBy_append :
    ∀ (c : List ScheduleEvent) (x : ScheduleEvent) (m : List ScheduleEvent),
      ChunkUniform (x :: c) →
      (∀ y, m.head? = some y → sameKeyB x y = false) →
      chunkBy ((x :: c) ++ m) = (x :: c) :: chunkBy m := by
  intro c
  induction c with
  | nil =>
    intro x m _ hm
    cases m with
    | nil => rfl
    | cons y m' =>
      rcases chunkBy_cons_shape y m' with ⟨g, gs, hshape⟩
      have hxy : ¬ sameKeyB x y = true := by
        rw [hm y rfl]
        intro hc
        cases hc
      simp only [List.cons_append, List.nil_append]
      rw [chunkBy_cons_of_diff x hshape hxy, hshape]
  | cons z c' ih =>
    intro x m hu hm
    have huz : ChunkUniform (z :: c') := by
      intro w hw
      exact sameKeyB_trans (sameKeyB_symm (hu z (List.mem_cons_self _ _)))
        (hu w (List.mem_cons_of_mem _ hw))
    have hmz : ∀ y, m.head? = some y → sameKeyB z y = false := by
      intro y hy
      cases hzy : sameKeyB z y
      · rfl
      · have : sameKeyB x y = true :=
          sameKeyB_trans (hu z (List.mem_cons_self _ _)) hzy
        rw [hm y hy] at this
        cases this
    have hinner := ih z m huz hmz
    simp only [List.cons_append] at hinner ⊢
    exact chunkBy_cons_of_same x hinner (hu z (List.mem_cons_self _ _))

theorem can_merge_spec (a b : ScheduleEvent) :
    a.can_merge b = true ↔
      a.summary = b.summary ∧ a.note = b.note ∧ a.location = b.location ∧
        a.booked = b.booked ∧ a.end_time = b.start_time := by
  simp only [ScheduleEvent.can_merge, Bool.and_eq_true, decide_eq_true_eq, and_assoc]

theorem can_merge_congr_right {b b' : ScheduleEvent} (a : ScheduleEvent)
    (h : attrStartEq b b') : a.can_merge b = a.can_merge b' := by
  rcases h with ⟨h1, h2, h3, h4, h5⟩
  simp only [ScheduleEvent.can_merge, h1, h2, h3, h4, h5]

theorem mergeRun_shape :
    ∀ (rest : List ScheduleEvent) (cur : ScheduleEvent),
      ∀ x ∈ mergeRun cur rest, ∃ src ∈ cur :: rest, attrStartEq x src ∧ x.id = src.id := by
  intro rest
  induction rest with
  | nil =>
    intro cur x hx
    rcases List.mem_singleton.mp hx with rfl
    exact ⟨x, List.mem_cons_self _ _, ⟨rfl, rfl, rfl, rfl, rfl⟩, rfl⟩
  | cons next rest ih =>
    intro cur x hx
    simp only [mergeRun] at hx
    by_cases hm : cur.can_merge next
    · rw [if_pos hm] at hx
      rcases ih _ x hx with ⟨src, hsrc, heq, hid⟩
      rcases List.mem_cons.mp hsrc with rfl | hsrc'
      · exact ⟨cur, List.mem_cons_self _ _, heq, hid⟩
      · exact ⟨src, List.mem_cons_of_mem _ (List.mem_cons_of_mem _ hsrc'), heq, hid⟩
    · rw [if_neg hm] at hx
      rcases List.mem_cons.mp hx with rfl | hx'
      · exact ⟨x, List.mem_cons_self _ _, ⟨rfl, rfl, rfl, rfl, rfl⟩, rfl⟩
      · rcases ih next x hx' with ⟨src, hsrc, heq, hid⟩
        exact ⟨src, List.mem_cons_of_mem _ hsrc, heq, hid⟩

theorem mergeRun_head :
    ∀ (rest : List ScheduleEvent) (cur : ScheduleEvent),
      ∃ e t, mergeRun cur rest = e :: t ∧ attrStartEq e cur ∧ e.id = cur.id := by
  intro rest
  induction rest with
  | nil => intro cur; exact ⟨cur, [], rfl, ⟨rfl, rfl, rfl, rfl, rfl⟩, rfl⟩
  | cons next rest ih =>
    intro cur
    simp only [mergeRun]
    by_cases hm : cur.can_merge next
    · rw [if_pos hm]
      rcases ih { cur with end_time := next.end_time } with ⟨e, t, heq, hattr, hid⟩
      exact ⟨e, t, heq, hattr, hid⟩
    · rw [if_neg hm]
      exact ⟨cur, mergeRun next rest, rfl, ⟨rfl, rfl, rfl, rfl, rfl⟩, rfl⟩

theorem mergeRun_chain :
    ∀ (rest : List ScheduleEvent) (cur : ScheduleEvent),
      List.Chain' (fun a b => a.can_merge b = false) (mergeRun cur rest) := by
  intro rest
  induction rest with
  | nil => intro cur; simp [mergeRun]
  | cons next rest ih =>
    intro cur
    simp only [mergeRun]
    by_cases hm : cur.can_merge next
    · rw [if_pos hm]; exact ih _
    · rw [if_neg hm]
      rcases mergeRun_head rest next with ⟨e, t, heq, hattr, _⟩
      refine List.chain'_cons'.mpr ⟨?_, ih next⟩
      intro y hy
      rw [heq, List.head?_cons] at hy
      injection hy with hy
      subst hy
      rw [can_merge_congr_right cur hattr]
      cases hc : cur.can_merge next
      · rfl
      · exact absurd hc (by simp [hm])

theorem mergeRun_of_chain :
    ∀ (rest : List ScheduleEvent) (cur : ScheduleEvent),
      List.Chain' (fun a b => a.can_merge b = false) (cur :: rest) →
      mergeRun cur rest = cur :: rest := by
  intro rest
  induction rest with
  | nil => intro cur _; rfl
  | cons next rest ih =>
    intro cur hch
    rcases List.chain'_cons.mp hch with ⟨hcn, htail⟩
    simp only [mergeRun]
    rw [if_neg (by simp [hcn])]
    rw [ih next htail]

theorem mergeGroup_idem (c : List ScheduleEvent) : mergeGroup (mergeGroup c) = mergeGroup c := by
  cases c with
  | nil => rfl
  | cons e rest =>
    simp only [mergeGroup]
    rcases mergeRun_head rest e with ⟨h, t, heq, _, _⟩
    rw [heq]
    simp only [mergeGroup]
    have hchain := mergeRun_chain rest e
    rw [heq] at hchain
    exact mergeRun_of_chain t h hchain

theorem mergeRun_pairwise (R : ScheduleEvent → ScheduleEvent → Prop)
    (hRl : ∀ a a' b, attrStartEq a a' → R a' b → R a b)
    (hRr : ∀ a a' b, attrStartEq a a' → R b a' → R b a) :
    ∀ (rest : List ScheduleEvent) (cur : ScheduleEvent),
      (cur :: rest).Pairwise R → (mergeRun cur rest).Pairwise R := by
  intro rest
  induction rest with
  | nil => intro cur _; exact List.pairwise_singleton R cur
  | cons next rest ih =>
    intro cur hp
    rcases List.pairwise_cons.mp hp with ⟨hcur, hp1⟩
    rcases List.pairwise_cons.mp hp1 with ⟨hnext, hp2⟩
    simp only [mergeRun]
    by_cases hm : cur.can_merge next
    · rw [if_pos hm]
      refine ih _ (List.pairwise_cons.mpr ⟨?_, hp2⟩)
      intro z hz
      exact hRl _ cur z ⟨rfl, rfl, rfl, rfl, rfl⟩ (hcur z (List.mem_cons_of_mem _ hz))
    · rw [if_neg hm]
      refine List.pairwise_cons.mpr ⟨?_, ih next hp1⟩
      intro z hz
      rcases mergeRun_shape rest next z hz with ⟨src, hsrc, hattr, _⟩
      exact hRr z src cur hattr (hcur src hsrc)

theorem key5_eq_of_attrStartEq {a b : ScheduleEvent} (h : attrStartEq a b) :
    key5 a = key5 b := by
  rcases h with ⟨h1, h2, h3, h4, h5⟩
  simp only [key5, h1, h2, h3, h4, h5]

theorem keyRel_congr_left {a a' b : ScheduleEvent} (h : attrStartEq a a')
    (hr : keyRel a' b) : keyRel a b := by
  intro hgt
  rw [lawful_cmp_key.congr_keys a a' b b (key5_eq_of_attrStartEq h) rfl] at hgt
  exact hr hgt

theorem keyRel_congr_right {a a' b : ScheduleEvent} (h : attrStartEq a a')
    (hr : keyRel b a') : keyRel b a := by
  intro hgt
  rw [lawful_cmp_key.congr_keys b b a a' rfl (key5_eq_of_attrStartEq h)] at hgt
  exact hr hgt

theorem sameKeyB_congr_left {a a' : ScheduleEvent} (h : attrStartEq a a')
    (b : ScheduleEvent) : sameKeyB a b = sameKeyB a' b := by
  rcases h with ⟨_, h2, h3, h4, h5⟩
  simp only [sameKeyB, h2, h3, h4, h5]

theorem sameKeyB_congr_right {a a' : ScheduleEvent} (h : attrStartEq a a')
    (b : ScheduleEvent) : sameKeyB b a = sameKeyB b a' := by
  rcases h with ⟨_, h2, h3, h4, h5⟩
  simp only [sameKeyB, h2, h3, h4, h5]

theorem mergeGroup_shape {c : List ScheduleEvent} :
    ∀ x ∈ mergeGroup c, ∃ src ∈ c, attrStartEq x src ∧ x.id = src.id := by
  cases c with
  | nil => intro x hx; cases hx
  | cons e rest => exact mergeRun_shape rest e

theorem mergeGroup_head (e : ScheduleEvent) (rest : List ScheduleEvent) :
    ∃ h t, mergeGroup (e :: rest) = h :: t ∧ attrStartEq h e ∧ h.id = e.id := by
  simp only [mergeGroup]
  exact mergeRun_head rest e

theorem mergeGroup_uniform {c : List ScheduleEvent} (hc : ChunkUniform c) :
    ChunkUniform (mergeGroup c) := by
  cases c with
  | nil => exact hc
  | cons e rest =>
    rcases mergeGroup_head e rest with ⟨h, t, heq, hattr, _⟩
    rw [heq]
    intro x hx
    have hx' : x ∈ mergeGroup (e :: rest) := by
      rw [heq]; exact List.mem_cons_of_mem _ hx
    rcases mergeGroup_shape x hx' with ⟨src, hsrc, hxattr, _⟩
    rw [sameKeyB_congr_left hattr, sameKeyB_congr_right hxattr]
    rcases List.mem_cons.mp hsrc with rfl | hsrc'
    · exact sameKeyB_refl _
    · exact hc src hsrc'

theorem mergeGroup_pairwise_keyRel {c : List ScheduleEvent} (hc : c.Pairwise keyRel) :
    (mergeGroup c).Pairwise keyRel := by
  cases c with
  | nil => exact hc
  | cons e rest =>
    exact mergeRun_pairwise keyRel (fun a a' b h hr => keyRel_congr_left h hr)
      (fun a a' b h hr => keyRel_congr_right h hr) rest e hc

/-- The compacted list, before its final sort: chunks in key order, each
folded by `mergeGroup`. -/
theorem merged_pairwise_keyRel {u : List ScheduleEvent} (hu : u.Pairwise keyRel) :
    (((chunkBy u).map mergeGroup).flatten).Pairwise keyRel := by
  have hu' : ((chunkBy u).flatten).Pairwise keyRel := by
    rw [chunkBy_flatten]; exact hu
  rcases List.pairwise_flatten.mp hu' with ⟨hin, hcross⟩
  refine List.pairwise_flatten.mpr ⟨?_, ?_⟩
  · intro l hl
    rcases List.mem_map.mp hl with ⟨c, hc, rfl⟩
    exact mergeGroup_pairwise_keyRel (hin c hc)
  · refine List.Pairwise.map mergeGroup ?_ hcross
    intro c d hcd x hx y hy
    rcases mergeGroup_shape x hx with ⟨sx, hsx, hax, _⟩
    rcases mergeGroup_shape y hy with ⟨sy, hsy, hay, _⟩
    exact keyRel_congr_left hax (keyRel_congr_right hay (hcd sx hsx sy hsy))

/-- Re-sorting the compacted list by the full key recovers it exactly: the
start-time sort and the key sort are both stable, and tie classes of the key
have equal start times. -/
theorem sort_key_sort_start {M : List ScheduleEvent} (hM : M.Pairwise keyRel) :
    List.insertionSort keyRel (List.insertionSort startLe M) = M := by
  apply eq_of_sorted_of_classFilter_eq
  · exact List.sorted_insertionSort keyRel _
  · exact hM
  · intro k
    rw [filter_insertionSort keyRel _ _ ?hkey, filter_insertionSort startLe _ _ ?hstart]
    case hkey =>
      intro a ha b hb
      exact keyRel_of_key5_eq
        (((sameKeyStartB_iff a k).mp ha).trans ((sameKeyStartB_iff b k).mp hb).symm)
    case hstart =>
      intro a ha b hb
      have : key5 a = key5 b :=
        ((sameKeyStartB_iff a k).mp ha).trans ((sameKeyStartB_iff b k).mp hb).symm
      have hstart : a.start_time = b.start_time := by
        simp only [key5, Prod.mk.injEq] at this
        exact this.2.2.2.2
      exact le_of_eq hstart

/-- `chunkBy` recovers a flattened list of well-formed chunks whose
neighbouring keys differ. -/
theorem chunkBy_flatten_of_chunks :
    ∀ cs : List (List ScheduleEvent),
      (∀ c ∈ cs, ChunkUniform c) →
      List.Chain' (fun c d => ∀ x y, c.head? = some x → d.head? = some y → sameKeyB x y = false)
        cs →
      chunkBy cs.flatten = cs := by
  intro cs
  induction cs with
  | nil => intro _ _; rfl
  | cons c cs' ih =>
    intro hu hch
    cases c with
    | nil => exact absurd (hu [] (List.mem_cons_self _ _)) (fun hfalse => hfalse)
    | cons x c0 =>
      rcases List.chain'_cons'.mp hch with ⟨hhead, htail⟩
      have hm : ∀ y, (cs'.flatten).head? = some y → sameKeyB x y = false := by
        intro y hy
        cases cs' with
        | nil => cases hy
        | cons d ds =>
          cases d with
          | nil =>
            exact absurd (hu [] (List.mem_cons_of_mem _ (List.mem_cons_self _ _))) fun hf => hf
          | cons z d0 =>
            simp only [List.flatten_cons, List.cons_append, List.head?_cons] at hy
            injection hy with hy
            subst hy
            exact hhead (z :: d0) rfl x z rfl rfl
      simp only [List.flatten_cons]
      rw [chunkBy_append c0 x cs'.flatten (hu _ (List.mem_cons_self _ _)) hm]
      rw [ih (fun d hd => hu d (List.mem_cons_of_mem _ hd)) htail]

/-- Compaction is idempotent (claim C2's core computation). -/
theorem merge_events_idem (s : List ScheduleEvent) :
    merge_events (merge_events s) = merge_events s := by
  have hu : (List.insertionSort keyRel s).Pairwise keyRel :=
    List.sorted_insertionSort keyRel s
  have hM : (((chunkBy (List.insertionSort keyRel s)).map mergeGroup).flatten).Pairwise keyRel :=
    merged_pairwise_keyRel hu
  show List.insertionSort startLe
      (((chunkBy (List.insertionSort keyRel (merge_events s))).map mergeGroup).flatten)
    = merge_events s
  have h1 : List.insertionSort keyRel (merge_events s)
      = ((chunkBy (List.insertionSort keyRel s)).map mergeGroup).flatten := by
    show List.insertionSort keyRel
        (List.insertionSort startLe
          (((chunkBy (List.insertionSort keyRel s)).map mergeGroup).flatten))
      = ((chunkBy (List.insertionSort keyRel s)).map mergeGroup).flatten
    exact sort_key_sort_start hM
  rw [h1]
  have h2 : chunkBy (((chunkBy (List.insertionSort keyRel s)).map mergeGroup).flatten)
      = (chunkBy (List.insertionSort keyRel s)).map mergeGroup := by
    apply chunkBy_flatten_of_chunks
    · intro c hc
      rcases List.mem_map.mp hc with ⟨d, hd, rfl⟩
      exact mergeGroup_uniform (chunkBy_uniform _ d hd)
    · rw [List.chain'_map]
      refine (chunkBy_chain (List.insertionSort keyRel s)).imp ?_
      intro c d hcd x y hx hy
      cases c with
      | nil => cases hx
      | cons e c0 =>
        cases d with
        | nil => cases hy
        | cons f d0 =>
          rcases mergeGroup_head e c0 with ⟨hx0, tx, heqx, hattrx, _⟩
          rcases mergeGroup_head f d0 with ⟨hy0, ty, heqy, hattry, _⟩
          rw [heqx, List.head?_cons] at hx
          rw [heqy, List.head?_cons] at hy
          injection hx with hx
          injection hy with hy
          subst hx
          subst hy
          rw [sameKeyB_congr_left hattrx, sameKeyB_congr_right hattry]
          exact hcd e f rfl rfl
  rw [h2]
  rw [List.map_map]
  have h3 : (chunkBy (List.insertionSort keyRel s)).map (mergeGroup ∘ mergeGroup)
      = (chunkBy (List.insertionSort keyRel s)).map mergeGroup := by
    apply List.map_congr_left
    intro c _
    exact mergeGroup_idem c
  rw [h3]
  rfl

theorem overlap_comm {a b : ScheduleEvent} : Overlap a b ↔ Overlap b a := by
  simp only [Overlap]
  omega

theorem not_overlap_merged {cur next z : ScheduleEvent} (hcn : cur.end_time = next.start_time)
    (hz : EndAfterStart z) (h1 : ¬ Overlap cur z) (h2 : ¬ Overlap next z) :
    ¬ Overlap { cur with end_time := next.end_time } z := by
  simp only [Overlap, EndAfterStart] at *
  omega

theorem not_overlap_within {a b ea eb : ScheduleEvent}
    (ha : ea.start_time ≤ a.start_time ∧ a.end_time ≤ ea.end_time)
    (hb : eb.start_time ≤ b.start_time ∧ b.end_time ≤ eb.end_time)
    (hab : ¬ Overlap ea eb) : ¬ Overlap a b := by
  simp only [Overlap] at *
  omega

theorem mergeRun_no_overlap :
    ∀ (rest : List ScheduleEvent) (cur : ScheduleEvent),
      AllPositive (cur :: rest) →
      (cur :: rest).Pairwise (fun a b => ¬ Overlap a b) →
      AllPositive (mergeRun cur rest) ∧
        (mergeRun cur rest).Pairwise (fun a b => ¬ Overlap a b) ∧
        (∀ x, EndAfterStart x → (∀ y ∈ cur :: rest, ¬ Overlap x y) →
          ∀ z ∈ mergeRun cur rest, ¬ Overlap x z) := by
  intro rest
  induction rest with
  | nil =>
    intro cur hpos hp
    refine ⟨?_, List.pairwise_singleton _ _, ?_⟩
    · intro e he
      rcases List.mem_singleton.mp he with rfl
      exact hpos e (List.mem_singleton.mpr rfl)
    · intro x _ hx z hz
      rcases List.mem_singleton.mp hz with rfl
      exact hx z (List.mem_cons_self _ _)
  | cons next rest ih =>
    intro cur hpos hp
    rcases List.pairwise_cons.mp hp with ⟨hcur, hp1⟩
    rcases List.pairwise_cons.mp hp1 with ⟨hnext, hp2⟩
    have hposcur : EndAfterStart cur := hpos cur (List.mem_cons_self _ _)
    have hposnext : EndAfterStart next :=
      hpos next (List.mem_cons_of_mem _ (List.mem_cons_self _ _))
    simp only [mergeRun]
    by_cases hm : cur.can_merge next
    · rw [if_pos hm]
      have hcn : cur.end_time = next.start_time := ((can_merge_spec cur next).mp hm).2.2.2.2
      have hmpos : EndAfterStart { cur with end_time := next.end_time } := by
        simp only [EndAfterStart] at *
        omega
      have hmerged_rest : ∀ z ∈ rest, ¬ Overlap { cur with end_time := next.end_time } z := by
        intro z hz
        exact not_overlap_merged hcn (hpos z (by simp [hz]))
          (hcur z (List.mem_cons_of_mem _ hz)) (hnext z hz)
      have hpos' : AllPositive ({ cur with end_time := next.end_time } :: rest) := by
        intro e he
        rcases List.mem_cons.mp he with rfl | he'
        · exact hmpos
        · exact hpos e (by simp [he'])
      have hp' : ({ cur with end_time := next.end_time } :: rest).Pairwise
          (fun a b => ¬ Overlap a b) :=
        List.pairwise_cons.mpr ⟨hmerged_rest, hp2⟩
      rcases ih _ hpos' hp' with ⟨ihpos, ihpair, ihshield⟩
      refine ⟨ihpos, ihpair, ?_⟩
      intro x hxp hx z hz
      refine ihshield x hxp ?_ z hz
      intro y hy
      rcases List.mem_cons.mp hy with rfl | hy'
      · have h1 : ¬ Overlap cur x := fun h => hx cur (List.mem_cons_self _ _) (overlap_comm.mp h)
        have h2 : ¬ Overlap next x :=
          fun h => hx next (List.mem_cons_of_mem _ (List.mem_cons_self _ _)) (overlap_comm.mp h)
        exact fun h => not_overlap_merged hcn hxp h1 h2 (overlap_comm.mp h)
      · exact hx y (List.mem_cons_of_mem _ (List.mem_cons_of_mem _ hy'))
    · rw [if_neg hm]
      rcases ih next (fun e he => hpos e (List.mem_cons_of_mem _ he)) hp1 with
        ⟨ihpos, ihpair, ihshield⟩
      refine ⟨?_, ?_, ?_⟩
      · intro e he
        rcases List.mem_cons.mp he with rfl | he'
        · exact hposcur
        · exact ihpos e he'
      · refine List.pairwise_cons.mpr ⟨?_, ihpair⟩
        intro z hz
        exact ihshield cur hposcur hcur z hz
      · intro x hxp hx z hz
        rcases List.mem_cons.mp hz with rfl | hz'
        · exact hx z (List.mem_cons_self _ _)
        · exact ihshield x hxp (fun y hy => hx y (List.mem_cons_of_mem _ hy)) z hz'

theorem mergeGroup_no_overlap {c : List ScheduleEvent} (hpos : AllPositive c)
    (hp : c.Pairwise (fun a b => ¬ Overlap a b)) :
    AllPositive (mergeGroup c) ∧
      (mergeGroup c).Pairwise (fun a b => ¬ Overlap a b) ∧
      (∀ x, EndAfterStart x → (∀ y ∈ c, ¬ Overlap x y) →
        ∀ z ∈ mergeGroup c, ¬ Overlap x z) := by
  cases c with
  | nil =>
    refine ⟨fun e he => absurd he (List.not_mem_nil e), List.Pairwise.nil, ?_⟩
    intro x _ _ z hz
    cases hz
  | cons e rest => exact mergeRun_no_overlap rest e hpos hp

theorem merge_events_invariant {l : List ScheduleEvent} (hpos : AllPositive l)
    (hno : NoOverlaps l) : AllPositive (merge_events l) ∧ NoOverlaps (merge_events l) := by
  have hsymm : ∀ {x y : ScheduleEvent}, ¬ Overlap x y → ¬ Overlap y x :=
    fun h hxy => h (overlap_comm.mp hxy)
  have hperm1 : (List.insertionSort keyRel l).Perm l := List.perm_insertionSort keyRel l
  have hposu : AllPositive (List.insertionSort keyRel l) := by
    intro e he
    exact hpos e (hperm1.mem_iff.mp he)
  have hnou : (List.insertionSort keyRel l).Pairwise (fun a b => ¬ Overlap a b) :=
    (hperm1.pairwise_iff hsymm).mpr hno
  have hflat : ((chunkBy (List.insertionSort keyRel l)).flatten).Pairwise
      (fun a b => ¬ Overlap a b) := by
    rw [chunkBy_flatten]; exact hnou
  have hflatpos : AllPositive ((chunkBy (List.insertionSort keyRel l)).flatten) := by
    rw [chunkBy_flatten]; exact hposu
  rcases List.pairwise_flatten.mp hflat with ⟨hin, hcross⟩
  have hposM : AllPositive (((chunkBy (List.insertionSort keyRel l)).map mergeGroup).flatten) := by
    intro e he
    rcases List.mem_flatten.mp he with ⟨m, hm, hem⟩
    rcases List.mem_map.mp hm with ⟨c, hc, rfl⟩
    have hcpos : AllPositive c := by
      intro y hy
      exact hflatpos y (List.mem_flatten.mpr ⟨c, hc, hy⟩)
    exact (mergeGroup_no_overlap hcpos (hin c hc)).1 e hem
  have hpairM : (((chunkBy (List.insertionSort keyRel l)).map mergeGroup).flatten).Pairwise
      (fun a b => ¬ Overlap a b) := by
    refine List.pairwise_flatten.mpr ⟨?_, ?_⟩
    · intro m hm
      rcases List.mem_map.mp hm with ⟨c, hc, rfl⟩
      have hcpos : AllPositive c := by
        intro y hy
        exact hflatpos y (List.mem_flatten.mpr ⟨c, hc, hy⟩)
      exact (mergeGroup_no_overlap hcpos (hin c hc)).2.1
    · have hcross' : (chunkBy (List.insertionSort keyRel l)).Pairwise
          (fun c d => AllPositive c ∧ AllPositive d ∧
            c.Pairwise (fun a b => ¬ Overlap a b) ∧ d.Pairwise (fun a b => ¬ Overlap a b) ∧
            ∀ x ∈ c, ∀ y ∈ d, ¬ Overlap x y) := by
        refine List.Pairwise.imp_of_mem ?_ hcross
        intro c d hc hd h
        refine ⟨?_, ?_, hin c hc, hin d hd, h⟩
        · intro w hw; exact hflatpos w (List.mem_flatten.mpr ⟨c, hc, hw⟩)
        · intro w hw; exact hflatpos w (List.mem_flatten.mpr ⟨d, hd, hw⟩)
      refine List.Pairwise.map mergeGroup ?_ hcross'
      intro c d hcd x hx y hy
      rcases hcd with ⟨hcp, hdp, hcpair, hdpair, hcd⟩
      have hshield_c := (mergeGroup_no_overlap hcp hcpair).2.2
      have hshield_d := (mergeGroup_no_overlap hdp hdpair).2.2
      have hx_d : ∀ y0 ∈ d, ¬ Overlap x y0 := by
        intro y0 hy0
        have h1 : ∀ w ∈ c, ¬ Overlap y0 w := by
          intro w hw
          exact fun h => hcd w hw y0 hy0 (overlap_comm.mp h)
        have h2 : ¬ Overlap y0 x := hshield_c y0 (hdp y0 hy0) h1 x hx
        exact fun h => h2 (overlap_comm.mp h)
      have hx_pos : EndAfterStart x := (mergeGroup_no_overlap hcp hcpair).1 x hx
      exact hshield_d x hx_pos hx_d y hy
  constructor
  · intro e he
    exact hposM e ((List.perm_insertionSort startLe _).mem_iff.mp he)
  · exact ((List.perm_insertionSort startLe _).pairwise_iff hsymm).mpr hpairM

theorem mem_ite_singleton {α : Type} {c : Prop} [Decidable c] {x a : α}
    (h : a ∈ (if c then [x] else [])) : c ∧ a = x := by
  by_cases hc : c
  · rw [if_pos hc] at h
    exact ⟨hc, List.mem_singleton.mp h⟩
  · rw [if_neg hc] at h
    cases h

theorem splitLoop_within (ids : Nat → String) (new_event : ScheduleEvent) :
    ∀ (events : List ScheduleEvent) (k : Nat),
      ∀ z ∈ (splitLoop ids new_event events k).1,
        ∃ ex ∈ events, ex.start_time ≤ z.start_time ∧ z.end_time ≤ ex.end_time := by
  intro events
  induction events with
  | nil => intro k z hz; simp [splitLoop] at hz
  | cons ex rest ih =>
    intro k z hz
    simp only [splitLoop] at hz
    by_cases hc : new_event.start_time < ex.end_time ∧ new_event.end_time > ex.start_time
    · rw [if_pos hc] at hz
      rcases List.mem_append.mp hz with hfrag | hz'
      · rcases List.mem_append.mp hfrag with hbef | haft
        · rcases mem_ite_singleton hbef with ⟨hg, rfl⟩
          exact ⟨ex, List.mem_cons_self _ _, by simp [fragment_of], by simp [fragment_of]; omega⟩
        · rcases mem_ite_singleton haft with ⟨hg, rfl⟩
          exact ⟨ex, List.mem_cons_self _ _, by simp [fragment_of]; omega, by simp [fragment_of]⟩
      · rcases ih _ z hz' with ⟨ex', hex', h1, h2⟩
        exact ⟨ex', List.mem_cons_of_mem _ hex', h1, h2⟩
    · rw [if_neg hc] at hz
      rcases List.mem_cons.mp hz with rfl | hz'
      · exact ⟨z, List.mem_cons_self _ _, le_refl _, le_refl _⟩
      · rcases ih _ z hz' with ⟨ex', hex', h1, h2⟩
        exact ⟨ex', List.mem_cons_of_mem _ hex', h1, h2⟩

theorem splitLoop_positive (ids : Nat → String) (new_event : ScheduleEvent) :
    ∀ (events : List ScheduleEvent) (k : Nat), AllPositive events →
      AllPositive (splitLoop ids new_event events k).1 := by
  intro events
  induction events with
  | nil => intro k _ z hz; simp [splitLoop] at hz
  | cons ex rest ih =>
    intro k hpos z hz
    simp only [splitLoop] at hz
    by_cases hc : new_event.start_time < ex.end_time ∧ new_event.end_time > ex.start_time
    · rw [if_pos hc] at hz
      rcases List.mem_append.mp hz with hfrag | hz'
      · rcases List.mem_append.mp hfrag with hbef | haft
        · rcases mem_ite_singleton hbef with ⟨hg, rfl⟩
          simp only [EndAfterStart, fragment_of]
          omega
        · rcases mem_ite_singleton haft with ⟨hg, rfl⟩
          simp only [EndAfterStart, fragment_of]
          omega
      · exact ih _ (fun e he => hpos e (List.mem_cons_of_mem _ he)) z hz'
    · rw [if_neg hc] at hz
      rcases List.mem_cons.mp hz with rfl | hz'
      · exact hpos z (List.mem_cons_self _ _)
      · exact ih _ (fun e he => hpos e (List.mem_cons_of_mem _ he)) z hz'

theorem splitLoop_not_overlap_new (ids : Nat → String) (new_event : ScheduleEvent) :
    ∀ (events : List ScheduleEvent) (k : Nat),
      ∀ z ∈ (splitLoop ids new_event events k).1, ¬ Overlap new_event z := by
  intro events
  induction events with
  | nil => intro k z hz; simp [splitLoop] at hz
  | cons ex rest ih =>
    intro k z hz
    simp only [splitLoop] at hz
    by_cases hc : new_event.start_time < ex.end_time ∧ new_event.end_time > ex.start_time
    · rw [if_pos hc] at hz
      rcases List.mem_append.mp hz with hfrag | hz'
      · rcases List.mem_append.mp hfrag with hbef | haft
        · rcases mem_ite_singleton hbef with ⟨hg, rfl⟩
          simp only [Overlap, fragment_of]
          omega
        · rcases mem_ite_singleton haft with ⟨hg, rfl⟩
          simp only [Overlap, fragment_of]
          omega
      · exact ih _ z hz'
    · rw [if_neg hc] at hz
      rcases List.mem_cons.mp hz with rfl | hz'
      · simp only [Overlap]
        exact hc
      · exact ih _ z hz'

theorem splitLoop_keeps (ids : Nat → String) (new_event : ScheduleEvent) :
    ∀ (events : List ScheduleEvent) (k : Nat),
      ∀ ex ∈ events, ¬ Overlap new_event ex → ex ∈ (splitLoop ids new_event events k).1 := by
  intro events
  induction events with
  | nil => intro k ex hex _; cases hex
  | cons e rest ih =>
    intro k ex hex hno
    simp only [splitLoop]
    by_cases hc : new_event.start_time < e.end_time ∧ new_event.end_time > e.start_time
    · rw [if_pos hc]
      rcases List.mem_cons.mp hex with rfl | hex'
      · exact absurd hc hno
      · exact List.mem_append.mpr (Or.inr (ih _ ex hex' hno))
    · rw [if_neg hc]
      rcases List.mem_cons.mp hex with rfl | hex'
      · exact List.mem_cons_self _ _
      · exact List.mem_cons_of_mem _ (ih _ ex hex' hno)

theorem splitLoop_no_overlap (ids : Nat → String) (new_event : ScheduleEvent)
    (hnew : new_event.start_time ≤ new_event.end_time) :
    ∀ (events : List ScheduleEvent) (k : Nat), AllPositive events →
      events.Pairwise (fun a b => ¬ Overlap a b) →
      ((splitLoop ids new_event events k).1).Pairwise (fun a b => ¬ Overlap a b) := by
  intro events
  induction events with
  | nil => intro k _ _; simp [splitLoop]
  | cons ex rest ih =>
    intro k hpos hp
    rcases List.pairwise_cons.mp hp with ⟨hex, hp'⟩
    have hrec := ih (k + 1 + 1) (fun e he => hpos e (List.mem_cons_of_mem _ he)) hp'
    simp only [splitLoop]
    have hcross : ∀ z ∈ (splitLoop ids new_event rest (k + 1 + 1)).1,
        ∀ a, ex.start_time ≤ a.start_time → a.end_time ≤ ex.end_time → ¬ Overlap a z := by
      intro z hz a h1 h2
      rcases splitLoop_within ids new_event rest _ z hz with ⟨ex', hex', hz1, hz2⟩
      exact not_overlap_within ⟨h1, h2⟩ ⟨hz1, hz2⟩ (hex ex' hex')
    by_cases hc : new_event.start_time < ex.end_time ∧ new_event.end_time > ex.start_time
    · rw [if_pos hc]
      -- the recursion counter differs per guard; handle all guard combinations
      by_cases hb : new_event.start_time > ex.start_time <;>
        by_cases ha : new_event.end_time < ex.end_time <;>
          simp only [if_pos, if_neg, hb, ha, if_true, if_false, ite_true, ite_false,
            List.length_cons, List.length_nil, List.nil_append, List.cons_append,
            List.singleton_append] <;>
        first
        | (refine List.pairwise_cons.mpr ⟨?_, List.pairwise_cons.mpr ⟨?_, ih _ (fun e he => hpos e (List.mem_cons_of_mem _ he)) hp'⟩⟩
           ·
             intro z hz
             rcases List.mem_cons.mp hz with rfl | hz'
             · simp only [Overlap, fragment_of]
               omega
             · refine (by
                 rcases splitLoop_within ids new_event rest _ z hz' with ⟨ex', hex', hz1, hz2⟩
                 refine not_overlap_within ⟨?_, ?_⟩ ⟨hz1, hz2⟩ (hex ex' hex') <;>
                   simp only [fragment_of] <;> omega)
           ·
             intro z hz'
             rcases splitLoop_within ids new_event rest _ z hz' with ⟨ex', hex', hz1, hz2⟩
             refine not_overlap_within ⟨?_, ?_⟩ ⟨hz1, hz2⟩ (hex ex' hex') <;>
               simp only [fragment_of] <;> omega)
        | (refine List.pairwise_cons.mpr ⟨?_, ih _ (fun e he => hpos e (List.mem_cons_of_mem _ he)) hp'⟩
           intro z hz'
           rcases splitLoop_within ids new_event rest _ z hz' with ⟨ex', hex', hz1, hz2⟩
           refine not_overlap_within ⟨?_, ?_⟩ ⟨hz1, hz2⟩ (hex ex' hex') <;>
             simp only [fragment_of] <;> omega)
        | (exact ih _ (fun e he => hpos e (List.mem_cons_of_mem _ he)) hp')
    · rw [if_neg hc]
      refine List.pairwise_cons.mpr ⟨?_, ih _ (fun e he => hpos e (List.mem_cons_of_mem _ he)) hp'⟩
      intro z hz'
      rcases splitLoop_within ids new_event rest _ z hz' with ⟨ex', hex', hz1, hz2⟩
      exact not_overlap_within ⟨le_refl _, le_refl _⟩ ⟨hz1, hz2⟩ (hex ex' hex')

theorem split_overlapping_events_invariant (ids : Nat → String)
    {events : List ScheduleEvent} {new_event : ScheduleEvent}
    (hpos : AllPositive events) (hno : NoOverlaps events) (hnew : EndAfterStart new_event) :
    AllPositive (split_overlapping_events ids events new_event) ∧
      NoOverlaps (split_overlapping_events ids events new_event) := by
  have hnew' : new_event.start_time ≤ new_event.end_time := le_of_lt hnew
  have hpos0 : AllPositive ((splitLoop ids new_event events 0).1 ++ [new_event]) := by
    intro e he
    rcases List.mem_append.mp he with h | h
    · exact splitLoop_positive ids new_event events 0 hpos e h
    · rcases List.mem_singleton.mp h with rfl
      exact hnew
  have hp0 : ((splitLoop ids new_event events 0).1 ++ [new_event]).Pairwise
      (fun a b => ¬ Overlap a b) := by
    refine List.pairwise_append.mpr
      ⟨splitLoop_no_overlap ids new_event hnew' events 0 hpos hno,
        List.pairwise_singleton _ _, ?_⟩
    intro a ha b hb
    rw [List.mem_singleton.mp hb]
    exact fun h => splitLoop_not_overlap_new ids new_event events 0 a ha (overlap_comm.mp h)
  have hsymm : ∀ {x y : ScheduleEvent}, ¬ Overlap x y → ¬ Overlap y x :=
    fun h hxy => h (overlap_comm.mp hxy)
  have hperm :=
    List.perm_insertionSort startLe ((splitLoop ids new_event events 0).1 ++ [new_event])
  have hpos1 : AllPositive (split_phase ids events new_event) := by
    intro e he
    exact hpos0 e (hperm.mem_iff.mp he)
  have hp1 : NoOverlaps (split_phase ids events new_event) :=
    (hperm.pairwise_iff hsymm).mpr hp0
  exact merge_events_invariant hpos1 hp1

theorem insertAll_invariant (ids : Nat → String) (news : List ScheduleEvent) :
    ∀ s0 : List ScheduleEvent, AllPositive s0 → NoOverlaps s0 →
      (∀ e ∈ news, EndAfterStart e) →
      AllPositive (insertAll ids s0 news) ∧ NoOverlaps (insertAll ids s0 news) := by
  induction news with
  | nil => intro s0 h1 h2 _; exact ⟨h1, h2⟩
  | cons e rest ih =>
    intro s0 h1 h2 h3
    have hstep :=
      split_overlapping_events_invariant ids h1 h2 (h3 e (List.mem_cons_self _ _))
    have htail := ih (split_overlapping_events ids s0 e) hstep.1 hstep.2
      (fun x hx => h3 x (List.mem_cons_of_mem _ hx))
    exact htail

theorem split_phase_mem_new (ids : Nat → String) (events : List ScheduleEvent)
    (new_event : ScheduleEvent) : new_event ∈ split_phase ids events new_event := by
  have hperm :=
    List.perm_insertionSort startLe ((splitLoop ids new_event events 0).1 ++ [new_event])
  exact hperm.mem_iff.mpr (List.mem_append.mpr (Or.inr (List.mem_singleton.mpr rfl)))

theorem split_phase_mem_kept (ids : Nat → String) (events : List ScheduleEvent)
    (new_event : ScheduleEvent) {ex : ScheduleEvent} (hex : ex ∈ events)
    (h : ¬ Overlap new_event ex) : ex ∈ split_phase ids events new_event := by
  have hperm :=
    List.perm_insertionSort startLe ((splitLoop ids new_event events 0).1 ++ [new_event])
  refine hperm.mem_iff.mpr (List.mem_append.mpr (Or.inl ?_))
  exact splitLoop_keeps ids new_event events 0 ex hex h

theorem is_slot_free_spec (events : List ScheduleEvent) (s e : Int) :
    ((is_slot_free events s e = Except.ok true) ↔
      ∀ ev ∈ events, ¬ (s < ev.end_time ∧ e > ev.start_time)) ∧
    (events.filter (conflictsWith s e) ≠ [] →
      is_slot_free events s e = Except.error (events.filter (conflictsWith s e))) ∧
    (∀ b, is_slot_free events s e = Except.ok b → b = true) := by
  by_cases h : (events.filter (conflictsWith s e)).isEmpty
  · have hnil : events.filter (conflictsWith s e) = [] := List.isEmpty_iff.mp h
    have hval : is_slot_free events s e = Except.ok true := by
      simp only [is_slot_free]
      rw [if_pos h]
    refine ⟨?_, ?_, ?_⟩
    · rw [hval]
      simp only [true_iff]
      intro ev hev hov
      have : ev ∈ events.filter (conflictsWith s e) :=
        List.mem_filter.mpr ⟨hev, by simp only [conflictsWith, decide_eq_true_eq]; exact hov⟩
      rw [hnil] at this
      cases this
    · intro hne
      exact absurd hnil hne
    · intro b hb
      rw [hval] at hb
      injection hb with hb
      exact hb.symm
  · have hval : is_slot_free events s e = Except.error (events.filter (conflictsWith s e)) := by
      simp only [is_slot_free]
      rw [if_neg h]
    refine ⟨?_, ?_, ?_⟩
    · rw [hval]
      constructor
      · intro hx; cases hx
      · intro hall
        exfalso
        apply h
        rw [List.isEmpty_iff, List.filter_eq_nil_iff]
        intro ev hev
        simp only [conflictsWith, decide_eq_true_eq]
        exact hall ev hev
    · intro _; exact hval
    · intro b hb
      rw [hval] at hb
      cases hb

theorem find_next_event_time_spec (events : List ScheduleEvent) (project_task : String)
    (duration_minutes : Nat) (now : Int) (hs : events.Pairwise startLe) :
    (find_next_event_time events project_task duration_minutes now = none ↔
      ∀ ev ∈ events,
        next_event_matches project_task ((duration_minutes : Int) * 60) now ev = false) ∧
    (∀ s t, find_next_event_time events project_task duration_minutes now = some (s, t) →
      ∃ ev ∈ events,
        next_event_matches project_task ((duration_minutes : Int) * 60) now ev = true ∧
        s = ev.start_time ∧ t = ev.start_time + (duration_minutes : Int) * 60 ∧
        ∀ ev' ∈ events,
          next_event_matches project_task ((duration_minutes : Int) * 60) now ev' = true →
            ev.start_time ≤ ev'.start_time) := by
  rcases hfil : events.filter
      (next_event_matches project_task ((duration_minutes : Int) * 60) now) with _ | ⟨ev, rest⟩
  · constructor
    · simp only [find_next_event_time, hfil]
      constructor
      · intro _ ev hev
        have := List.filter_eq_nil_iff.mp hfil ev hev
        simpa using this
      · intro _; trivial
    · intro s t hst
      simp only [find_next_event_time, hfil] at hst
      cases hst
  · have hmem : ev ∈ events.filter
        (next_event_matches project_task ((duration_minutes : Int) * 60) now) := by
      rw [hfil]; exact List.mem_cons_self _ _
    rcases List.mem_filter.mp hmem with ⟨hev_mem, hev_match⟩
    constructor
    · simp only [find_next_event_time, hfil]
      constructor
      · intro hx; cases hx
      · intro hall
        rw [hall ev hev_mem] at hev_match
        cases hev_match
    · intro s t hst
      simp only [find_next_event_time, hfil, Option.some_inj, Prod.mk.injEq] at hst
      refine ⟨ev, hev_mem, hev_match, hst.1.symm, hst.2.symm, ?_⟩
      intro ev' hev' hmatch'
      have hmem' : ev' ∈ events.filter
          (next_event_matches project_task ((duration_minutes : Int) * 60) now) :=
        List.mem_filter.mpr ⟨hev', hmatch'⟩
      rw [hfil] at hmem'
      rcases List.mem_cons.mp hmem' with rfl | hrest
      · exact le_refl _
      · have hps : (ev :: rest).Pairwise startLe := by
          rw [← hfil]
          exact hs.filter _
        exact (List.pairwise_cons.mp hps).1 ev' hrest

theorem slotLoop_spec (events : List ScheduleEvent) (dur endT : Int) (hdur : 0 < dur) :
    ∀ (fuel : Nat) (cur : Int), (endT - cur).toNat < fuel →
      (∀ s t, slotLoop events dur endT fuel cur = some (s, t) →
        t = s + dur ∧ t ≤ endT ∧ (is_slot_free events s t).isOk = true ∧
        ∃ k : Nat, s = cur + (k : Int) * dur ∧
          ∀ j : Nat, j < k →
            (is_slot_free events (cur + (j : Int) * dur)
              (cur + (j : Int) * dur + dur)).isOk = false) ∧
      (slotLoop events dur endT fuel cur = none →
        ∀ k : Nat, cur + (k : Int) * dur + dur ≤ endT →
          (is_slot_free events (cur + (k : Int) * dur)
            (cur + (k : Int) * dur + dur)).isOk = false) := by
  intro fuel
  induction fuel with
  | zero => intro cur hf; exact absurd hf (Nat.not_lt_zero _)
  | succ fuel ih =>
    intro cur hf
    simp only [slotLoop]
    by_cases hle : cur + dur ≤ endT
    · rw [if_pos hle]
      by_cases hfree : (is_slot_free events cur (cur + dur)).isOk = true
      · rw [if_pos hfree]
        constructor
        · intro s t hst
          rw [Option.some_inj, Prod.mk.injEq] at hst
          rcases hst with ⟨hs, ht⟩
          subst hs
          subst ht
          refine ⟨rfl, hle, hfree, 0, by simp, ?_⟩
          intro j hj
          exact absurd hj (Nat.not_lt_zero j)
        · intro hnone
          cases hnone
      · rw [if_neg hfree]
        have hstep : (endT - (cur + dur)).toNat < fuel := by omega
        rcases ih (cur + dur) hstep with ⟨ihsome, ihnone⟩
        constructor
        · intro s t hst
          rcases ihsome s t hst with ⟨h1, h2, h3, k, hk, hj⟩
          refine ⟨h1, h2, h3, k + 1, ?_, ?_⟩
          · rw [hk]
            push_cast
            ring
          · intro j hj'
            cases j with
            | zero =>
              have : cur + ((0 : Nat) : Int) * dur = cur := by simp
              rw [this]
              simp only [Bool.not_eq_true] at hfree
              exact hfree
            | succ j =>
              have heq : cur + ((j + 1 : Nat) : Int) * dur = cur + dur + (j : Int) * dur := by
                push_cast
                ring
              rw [heq]
              exact hj j (by omega)
        · intro hnone k hk
          cases k with
          | zero =>
            have : cur + ((0 : Nat) : Int) * dur = cur := by simp
            rw [this]
            simp only [Bool.not_eq_true] at hfree
            exact hfree
          | succ k =>
            have heq : cur + ((k + 1 : Nat) : Int) * dur = cur + dur + (k : Int) * dur := by
              push_cast
              ring
            rw [heq]
            apply ihnone hnone
            rw [← heq]
            exact hk
    · rw [if_neg hle]
      constructor
      · intro s t hst
        cases hst
      · intro _ k hk
        exfalso
        have hkd : (0 : Int) ≤ (k : Int) * dur :=
          mul_nonneg (Int.natCast_nonneg k) (le_of_lt hdur)
        omega

theorem find_free_slot_core_spec (events : List ScheduleEvent) (ws we : Int)
    (dm rnd : Nat) (now : Int) (hd : 0 < dm) :
    (∀ s t, find_free_slot_core events ws we dm rnd now = some (s, t) →
      t = s + (dm : Int) * 60 ∧ t ≤ we ∧ (is_slot_free events s t).isOk = true ∧
      ∃ k : Nat, s = slot_search_start ws rnd now + (k : Int) * ((dm : Int) * 60) ∧
        ∀ j : Nat, j < k →
          (is_slot_free events (slot_search_start ws rnd now + (j : Int) * ((dm : Int) * 60))
            (slot_search_start ws rnd now + (j : Int) * ((dm : Int) * 60) +
              (dm : Int) * 60)).isOk = false) ∧
    (find_free_slot_core events ws we dm rnd now = none →
      ∀ k : Nat, slot_search_start ws rnd now + (k : Int) * ((dm : Int) * 60) +
          (dm : Int) * 60 ≤ we →
        (is_slot_free events (slot_search_start ws rnd now + (k : Int) * ((dm : Int) * 60))
          (slot_search_start ws rnd now + (k : Int) * ((dm : Int) * 60) +
            (dm : Int) * 60)).isOk = false) := by
  have hdur : (0 : Int) < (dm : Int) * 60 := by
    have : (0 : Int) < (dm : Int) := Int.natCast_pos.mpr hd
    omega
  have := slotLoop_spec events ((dm : Int) * 60) we hdur
    ((we - slot_search_start ws rnd now).toNat + 1) (slot_search_start ws rnd now)
    (Nat.lt_succ_self _)
  exact this

theorem generate_report_variance_spec (total : Int) (q : ℚ) :
    ((total - ratTrunc (q * 60) * 60 > 0 →
      (generate_report_variance total q).1 = VarianceKind.overrun) ∧
     (total - ratTrunc (q * 60) * 60 < 0 →
      (generate_report_variance total q).1 = VarianceKind.underrun) ∧
     (ratTrunc (q * 60) = 0 → (generate_report_variance total q).2.2.2 = 0) ∧
     (ratTrunc (q * 60) ≠ 0 →
      (generate_report_variance total q).2.2.2 =
        (((total - ratTrunc (q * 60) * 60).tdiv 60 : Int) : ℚ) /
          ((ratTrunc (q * 60) : Int) : ℚ) * 100)) := by
  refine ⟨?_, ?_, ?_, ?_⟩
  · intro h
    simp only [generate_report_variance]
    rw [if_pos h]
  · intro h
    simp only [generate_report_variance]
    rw [if_neg (by omega)]
  · intro h
    simp only [generate_report_variance]
    rw [if_neg (by omega)]
  · intro h
    simp only [generate_report_variance]
    rw [if_pos (by omega)]

theorem ratTrunc_five_hours : ratTrunc ((5 : ℚ) * 60) = 300 := by
  have h : ((5 : ℚ) * 60) = 300 := by norm_num
  rw [h]
  have hnum : ((300 : ℚ)).num = 300 := by norm_num
  have hden : ((300 : ℚ)).den = 1 := by norm_num
  simp only [ratTrunc, hnum, hden]
  decide

theorem report_variance_example :
    generate_report_variance 19800 5 = (VarianceKind.overrun, 0, 30, 10) := by
  simp only [generate_report_variance, ratTrunc_five_hours, Prod.mk.injEq]
  refine ⟨?_, ?_, ?_, ?_⟩
  · rw [if_pos (by norm_num : (19800 : Int) - 300 * 60 > 0)]
  · decide
  · decide
  · rw [if_pos (by norm_num : (300 : Int) * 60 ≠ 0)]
    have h1 : ((19800 : Int) - 300 * 60).tdiv 60 = 30 := by decide
    rw [h1]
    norm_num

theorem report_example_eval :
    (generate_report_core [evReport] "P" ymAll 2024 5 (some 5)).2 =
      some (VarianceKind.overrun, 0, 30, 10) := by
  have h1 : project_events [evReport] "P" ymAll 2024 5 = [evReport] := by decide
  have h2 : sum_durations [evReport] = 19800 := by decide
  simp only [generate_report_core, h1, h2, Option.map_some, Option.map_some']
  rw [report_variance_example]

/-- C1 (counterexample): starting from the empty set, inserting the
zero-length event `evZero` (the `add` command accepts the timespan
`14:00-14:00`, which parses and rounds to an empty range) and then the two
abutting identical-attribute events `evLeft` and `evRight` — each insertion
being a full Overlap Resolver + Compactor application — produces a stored set
in which two distinct events strictly overlap: the compactor fuses `evLeft`
and `evRight` across the zero-length event.  The claimed invariant is false
as stated for arbitrary resolver inputs. -/
theorem C1_counterexample :
    ¬ NoOverlaps (insertAll ids0 [] [evZero, evLeft, evRight]) := by decide

/-- C1 (amended): provided every event of the starting set and every inserted
event satisfies the data-model invariant `end_time > start_time` (spec §3),
after every sequence of Overlap Resolver + Compactor applications
(`split_overlapping_events`, which ends with `merge_events`) starting from the
empty set or any set satisfying the invariant, no two distinct events of the
resulting set strictly overlap. -/
theorem C1_amended (ids : Nat → String) (s0 news : List ScheduleEvent)
    (h0 : AllPositive s0) (h1 : NoOverlaps s0)
    (h2 : ∀ e ∈ news, EndAfterStart e) : NoOverlaps (insertAll ids s0 news) :=
  (insertAll_invariant ids news s0 h0 h1 h2).2

theorem C1_witness :
    AllPositive ([] : List ScheduleEvent) ∧ NoOverlaps ([] : List ScheduleEvent) ∧
      (∀ e ∈ [evLeft, evRight], EndAfterStart e) ∧
      NoOverlaps (insertAll ids0 [] [evLeft, evRight]) :=
  ⟨by decide, by decide, by decide,
    C1_amended ids0 [] [evLeft, evRight] (by decide) (by decide) (by decide)⟩

/-- C2: compaction is idempotent — applying `merge_events` twice yields the
same list, including the final ordering by start time, as applying it once. -/
theorem C2_idempotent (s : List ScheduleEvent) :
    merge_events (merge_events s) = merge_events s :=
  merge_events_idem s

/-- C3 (counterexample): with the stored event `evStored` = `[09:00, 10:00)`
(`A:B`, booked, id `x`) and the incoming event `evIncoming` = `[10:00, 11:00)`
with identical attributes and id `y`, the two do not strictly overlap, yet
after `split_overlapping_events` the incoming event does not appear with its
id and range (it was fused by the compactor into one `[09:00, 11:00)` event
keeping id `x`), and the non-overlapping existing event did not pass through
unchanged either.  The claim is false of `split_overlapping_events`, which
ends with `merge_events`. -/
theorem C3_counterexample :
    ¬ Overlap evIncoming evStored ∧
      split_overlapping_events ids0 [evStored] evIncoming =
        [{ id := "x", start_time := 32400, end_time := 39600, summary := "A:B",
           note := none, location := none, booked := true }] ∧
      evIncoming ∉ split_overlapping_events ids0 [evStored] evIncoming ∧
      evStored ∉ split_overlapping_events ids0 [evStored] evIncoming := by decide

/-- C3 (amended): in the resolution phase proper — splitting, appending the
incoming event and sorting by start time, i.e. the state of
`split_overlapping_events` just before its final `merge_events` call — the
incoming event appears unmodified, and every existing event that does not
strictly overlap it passes through unchanged.  (The subsequent compaction may
fuse the incoming event with chronologically abutting identical-attribute
events, as the counterexample shows.) -/
theorem C3_amended (ids : Nat → String) (events : List ScheduleEvent)
    (new_event : ScheduleEvent) :
    new_event ∈ split_phase ids events new_event ∧
      ∀ ex ∈ events, ¬ Overlap new_event ex → ex ∈ split_phase ids events new_event :=
  ⟨split_phase_mem_new ids events new_event,
    fun _ hex h => split_phase_mem_kept ids events new_event hex h⟩

theorem C3_witness :
    evIncoming ∈ split_phase ids0 [evStored] evIncoming ∧
      evStored ∈ split_phase ids0 [evStored] evIncoming :=
  ⟨(C3_amended ids0 [evStored] evIncoming).1,
    (C3_amended ids0 [evStored] evIncoming).2 evStored (by decide) (by decide)⟩

/-- C4 (counterexample): with a 15-minute interval and rounding up,
`round_time_to_interval` maps 23:55 to 00:00 (not 00:10) and 23:50 to 00:00
(not 00:05): rounding up advances by `interval - remainder`, so both times
land exactly on the next hour, which wraps to zero. -/
theorem C4_counterexample :
    round_time_to_interval ⟨23, 55, 0⟩ 15 true = ⟨0, 0, 0⟩ ∧
      round_time_to_interval ⟨23, 55, 0⟩ 15 true ≠ ⟨0, 10, 0⟩ ∧
      round_time_to_interval ⟨23, 50, 0⟩ 15 true ≠ ⟨0, 5, 0⟩ := by decide

/-- C4 (amended): when rounding up overflows the hour,
`round_time_to_interval` wraps the hour modulo 24 and keeps the overflowed
minutes modulo 60; with a 15-minute interval and rounding up, both 23:55 and
23:50 map to 00:00 (the next multiple of the interval), and any wall-clock
hour stays below 24. -/
theorem C4_amended :
    round_time_to_interval ⟨23, 55, 0⟩ 15 true = ⟨0, 0, 0⟩ ∧
      round_time_to_interval ⟨23, 50, 0⟩ 15 true = ⟨0, 0, 0⟩ ∧
      ∀ (t : NaiveTime) (interval : Nat) (round_up : Bool), t.hour < 24 →
        (round_time_to_interval t interval round_up).hour < 24 := by
  refine ⟨by decide, by decide, ?_⟩
  intro t interval round_up ht
  simp only [round_time_to_interval]
  by_cases h60 : 60 ≤ (if t.minute % interval = 0 then t.minute
      else if round_up then t.minute + (interval - t.minute % interval)
      else t.minute - t.minute % interval)
  · rw [if_pos h60]
    exact Nat.mod_lt _ (by omega)
  · rw [if_neg h60]
    exact ht

theorem C4_witness :
    (23 : Nat) < 24 ∧
      (round_time_to_interval ⟨23, 55, 0⟩ 15 true).hour < 24 :=
  ⟨by decide, C4_amended.2.2 ⟨23, 55, 0⟩ 15 true (by decide)⟩

/-- C5 (counterexample): a report over one event of duration 5h30m (19800
seconds) against a 5-hour target computes an overrun of 0h 30m but a
percentage of exactly 10 percent (`30 / 300 * 100`), not the claimed
`+9.09%` (which would be `diff / total`, not the code's `diff / target`). -/
theorem C5_counterexample :
    (generate_report_core [evReport] "P" ymAll 2024 5 (some 5)).2 =
      some (VarianceKind.overrun, 0, 30, 10) ∧ (10 : ℚ) ≠ 909 / 100 := by
  refine ⟨report_example_eval, by norm_num⟩

/-- C5 (amended): a report over events whose durations total 5 hours 30
minutes, against a target of 5 hours, reports an overrun of 0h 30m and a
percentage difference of exactly +10% (`diff / target * 100`). -/
theorem C5_amended :
    (generate_report_core [evReport] "P" ymAll 2024 5 (some 5)).2 =
      some (VarianceKind.overrun, 0, 30, 10) :=
  report_example_eval

/-- C6 (counterexample): `find_next_event_time` returns the first qualifying
event in stored order, not the earliest by start time: with the stored list
`[evLate, evEarly]` (both with summary `A:B`, qualifying for one minute after
`now = 0`), it returns the sub-interval of `evLate` starting at 200 even
though `evEarly` qualifies and starts at 100. -/
theorem C6_counterexample :
    find_next_event_time [evLate, evEarly] "A:B" 1 0 = some (200, 260) ∧
      next_event_matches "A:B" (((1 : Nat) : Int) * 60) 0 evEarly = true ∧
      evEarly.start_time = 100 ∧ (100 : Int) < 200 := by decide

/-- C6 (amended): `find_next_event_time` considers exactly the events whose
summary equals the label, whose start is at or after `now`, and whose span is
strictly longer than the duration; it returns the first such event in stored
order as `[start, start + duration)`, failing with `NotFound` (`none`) when
none qualifies — and when the stored list is sorted by start time (as every
list produced by the resolver/compactor pipeline is), that first qualifying
event is the earliest by start time. -/
theorem C6_amended (events : List ScheduleEvent) (project_task : String)
    (duration_minutes : Nat) (now : Int) (hs : events.Pairwise startLe) :
    (find_next_event_time events project_task duration_minutes now = none ↔
      ∀ ev ∈ events,
        next_event_matches project_task ((duration_minutes : Int) * 60) now ev = false) ∧
    (∀ s t, find_next_event_time events project_task duration_minutes now = some (s, t) →
      ∃ ev ∈ events,
        next_event_matches project_task ((duration_minutes : Int) * 60) now ev = true ∧
        s = ev.start_time ∧ t = ev.start_time + (duration_minutes : Int) * 60 ∧
        ∀ ev' ∈ events,
          next_event_matches project_task ((duration_minutes : Int) * 60) now ev' = true →
            ev.start_time ≤ ev'.start_time) :=
  find_next_event_time_spec events project_task duration_minutes now hs

theorem C6_witness :
    ∃ ev ∈ [evEarly, evLate],
      next_event_matches "A:B" (((1 : Nat) : Int) * 60) 0 ev = true ∧
      (100 : Int) = ev.start_time ∧ (160 : Int) = ev.start_time + ((1 : Nat) : Int) * 60 ∧
      ∀ ev' ∈ [evEarly, evLate],
        next_event_matches "A:B" (((1 : Nat) : Int) * 60) 0 ev' = true →
          ev.start_time ≤ ev'.start_time :=
  (C6_amended [evEarly, evLate] "A:B" 1 0 (by decide)).2 100 160 (by decide)

/-- C7 (counterexample): the `set` operation with only a time-range change
(events `[evSetTarget]`, id `a`, new range `[720, 780)` differing from the
original `[600, 660)`) produces a stored set whose single event still carries
the original id `a` — no freshly generated id replaces the event's identity. -/
theorem C7_counterexample :
    set_event ids0 [evSetTarget] "a"
        { location := none, note := none, booked := none, new_range := some (720, 780) } =
      some [{ id := "a", start_time := 720, end_time := 780, summary := "P:T",
              note := none, location := none, booked := false }] ∧
      (720, 780) ≠ (evSetTarget.start_time, evSetTarget.end_time) ∧
      evSetTarget.id = "a" := by decide

/-- C7 (amended): the `set` operation never mints a fresh id for the modified
event: whatever combination of note, location, booked and time-range changes
is requested, the modified event re-entering the resolver/compactor pipeline
carries the original event's id.  (Compaction may afterwards fuse it with an
abutting identical-attribute event, in which case the fold leader's id
survives.) -/
theorem C7_amended (original_event : ScheduleEvent) (opts : SetOptions) :
    ((set_modified original_event opts).1).id = original_event.id := by
  rcases opts with ⟨loc, nt, bk, range⟩
  cases loc <;> cases nt <;> cases bk <;> cases range <;>
    simp only [set_modified] <;> split <;> rfl

/-- C8 (counterexample): the scan of `find_free_slot` does not start at
`max(window_start, now rounded up to the interval)`: with an empty event set,
window `[09:55, 11:00)` (35700 to 39600 seconds of day), a 30-minute request,
15-minute rounding and `now` = 09:50 (35400), the code starts at the window
start 09:55 (since 09:55 is not before `now`, no rounding is applied) and
returns `[09:55, 10:25)`, while the claimed rule (modelled by
`find_free_slot_claim`) would start at 10:00 and return `[10:00, 10:30)`. -/
theorem C8_counterexample :
    find_free_slot_core [] 35700 39600 30 15 35400 = some (35700, 37500) ∧
      find_free_slot_claim [] 35700 39600 30 15 35400 = some (36000, 37800) ∧
      find_free_slot_core [] 35700 39600 30 15 35400 ≠
        find_free_slot_claim [] 35700 39600 30 15 35400 := by decide

/-- C8 (amended): `find_free_slot` starts at the window start if it is not
before `now`, and otherwise at `now` with its time of day rounded up to the
rounding interval (`slot_search_start`); from there it advances in steps of
exactly the requested duration while `start + duration ≤ window_end`, returns
the first candidate `[start, start + duration)` that strictly overlaps no
existing event, and reports `NotFound` (`none`) when the window is exhausted.
In particular, with events fully booking `[09:00, 12:00)`, `now` at 09:00 and
a request for a free 30-minute slot in `[09:00, 13:00)`, it returns
`[12:00, 12:30)`. -/
theorem C8_amended :
    (∀ (events : List ScheduleEvent) (ws we : Int) (dm rnd : Nat) (now : Int), 0 < dm →
      (∀ s t, find_free_slot_core events ws we dm rnd now = some (s, t) →
        t = s + (dm : Int) * 60 ∧ t ≤ we ∧ (is_slot_free events s t).isOk = true ∧
        ∃ k : Nat, s = slot_search_start ws rnd now + (k : Int) * ((dm : Int) * 60) ∧
          ∀ j : Nat, j < k →
            (is_slot_free events (slot_search_start ws rnd now + (j : Int) * ((dm : Int) * 60))
              (slot_search_start ws rnd now + (j : Int) * ((dm : Int) * 60) +
                (dm : Int) * 60)).isOk = false) ∧
      (find_free_slot_core events ws we dm rnd now = none →
        ∀ k : Nat, slot_search_start ws rnd now + (k : Int) * ((dm : Int) * 60) +
            (dm : Int) * 60 ≤ we →
          (is_slot_free events (slot_search_start ws rnd now + (k : Int) * ((dm : Int) * 60))
            (slot_search_start ws rnd now + (k : Int) * ((dm : Int) * 60) +
              (dm : Int) * 60)).isOk = false)) ∧
    find_free_slot_core [evBooked] 32400 46800 30 15 32400 = some (43200, 45000) := by
  constructor
  · intro events ws we dm rnd now hd
    exact find_free_slot_core_spec events ws we dm rnd now hd
  · decide

theorem C8_witness :
    (45000 : Int) = 43200 + ((30 : Nat) : Int) * 60 ∧ (45000 : Int) ≤ 46800 ∧
      (is_slot_free [evBooked] 43200 45000).isOk = true ∧
      ∃ k : Nat, (43200 : Int) = slot_search_start 32400 15 32400 +
          (k : Int) * (((30 : Nat) : Int) * 60) ∧
        ∀ j : Nat, j < k →
          (is_slot_free [evBooked]
            (slot_search_start 32400 15 32400 + (j : Int) * (((30 : Nat) : Int) * 60))
            (slot_search_start 32400 15 32400 + (j : Int) * (((30 : Nat) : Int) * 60) +
              ((30 : Nat) : Int) * 60)).isOk = false :=
  (C8_amended.1 [evBooked] 32400 46800 30 15 32400 (by decide)).1 43200 45000 (by decide)

/-- C9: when a target in fractional hours is supplied, the report computes
`diff = total - target_duration` (the target converted to whole minutes as
the code does), classifies `diff > 0` as an overrun and `diff < 0` as an
underrun, and computes `percentage = diff / target * 100` over the same
minute-granular durations, with the percentage defined as exactly 0 when the
target duration is zero — no division by zero occurs. -/
theorem C9_variance (total : Int) (q : ℚ) :
    ((total - ratTrunc (q * 60) * 60 > 0 →
      (generate_report_variance total q).1 = VarianceKind.overrun) ∧
     (total - ratTrunc (q * 60) * 60 < 0 →
      (generate_report_variance total q).1 = VarianceKind.underrun) ∧
     (ratTrunc (q * 60) = 0 → (generate_report_variance total q).2.2.2 = 0) ∧
     (ratTrunc (q * 60) ≠ 0 →
      (generate_report_variance total q).2.2.2 =
        (((total - ratTrunc (q * 60) * 60).tdiv 60 : Int) : ℚ) /
          ((ratTrunc (q * 60) : Int) : ℚ) * 100)) :=
  generate_report_variance_spec total q

theorem C9_witness :
    (generate_report_variance 19800 5).1 = VarianceKind.overrun ∧
      (generate_report_variance 19800 5).2.2.2 =
        (((19800 - ratTrunc ((5 : ℚ) * 60) * 60).tdiv 60 : Int) : ℚ) /
          ((ratTrunc ((5 : ℚ) * 60) : Int) : ℚ) * 100 :=
  ⟨(C9_variance 19800 5).1 (by rw [ratTrunc_five_hours]; decide),
    (C9_variance 19800 5).2.2.2 (by rw [ratTrunc_five_hours]; decide)⟩

/-- C10: `is_slot_free` returns `Ok(true)` exactly when no stored event
strictly overlaps the queried range; otherwise it returns `Err` carrying
exactly the strictly overlapping events in stored order (the filter of the
stored list); and `Ok(false)` is never returned, so the `Ok(false)` branch of
the `free` command is unreachable. -/
theorem C10_is_slot_free (events : List ScheduleEvent) (s e : Int) :
    ((is_slot_free events s e = Except.ok true) ↔
      ∀ ev ∈ events, ¬ (s < ev.end_time ∧ e > ev.start_time)) ∧
    (events.filter (conflictsWith s e) ≠ [] →
      is_slot_free events s e = Except.error (events.filter (conflictsWith s e))) ∧
    (∀ b, is_slot_free events s e = Except.ok b → b = true) :=
  is_slot_free_spec events s e

theorem C10_witness :
    is_slot_free [evBooked] 32400 34200 =
      Except.error ([evBooked].filter (conflictsWith 32400 34200)) :=
  (C10_is_slot_free [evBooked] 32400 34200).2.1 (by decide)

end Plantrack
